import Mathlib

set_option maxRecDepth 8000
set_option maxHeartbeats 1000000

/-!
Verification of the crawl engine of the web2pdf documentation crawler
(src/url_utils.py, src/crawler.py, src/config.py).

Python strings are modelled as lists of characters (`Str`).  The parts of
the Python standard library `urllib.parse` that the source calls
(`urljoin`, `urldefrag`, `urlparse`) are modelled faithfully after the
CPython implementation (scheme extraction, netloc splitting, fragment and
query splitting, parameter splitting, relative-reference resolution);
control-character sanitisation and IPv6 bracket validation, which only
reject exotic inputs, are not modelled.
-/

/-- A Python `str`, modelled as a list of characters. -/
abbrev Str := List Char

/-- Literal embedding of a Lean string as a Python string. -/
def pys (s : String) : Str := s.data

/-- Python substring membership: `needle in hay`. -/
def pyIn (needle : Str) : Str → Bool
  | [] => needle.isEmpty
  | c :: t => needle.isPrefixOf (c :: t) || pyIn needle t

/-- Python `str.lower`, on the ASCII range (the only range the source uses). -/
def pyLower (s : Str) : Str := s.map Char.toLower

/-- Python `str.split(sep)` for a one-character separator. -/
def pySplitOn (sep : Char) : Str → List Str
  | [] => [[]]
  | c :: t =>
    match pySplitOn sep t with
    | [] => [[]]
    | seg :: rest => if c = sep then [] :: seg :: rest else (c :: seg) :: rest

/-- Python `str.rstrip(c)` for a one-character argument: drop every trailing `c`. -/
def pyRstrip (sep : Char) (s : Str) : Str :=
  (s.reverse.dropWhile (fun c => c = sep)).reverse

/-- Whether a Python string ends with the character `c`. -/
def endsWithChar (c : Char) (s : Str) : Bool := s.getLast? = some c

/-- Python `lst[-2]` on the result of a split (defaulting instead of raising). -/
def secondLast (l : List Str) : Str := l.getD (l.length - 2) []

/-! ## Model of `urllib.parse` (CPython) -/

/-- The characters that terminate the authority component (`_splitnetloc`
stops at the first of `/`, `?`, `#`). -/
def isNetlocEnd (c : Char) : Bool := c = '/' || c = '?' || c = '#'

/-- CPython `_splitnetloc` on the text following `//`: the authority is
everything up to the first `/`, `?` or `#`. -/
def splitNetloc : Str → Str × Str
  | [] => ([], [])
  | a :: t =>
    if isNetlocEnd a then ([], a :: t)
    else
      let p := splitNetloc t
      (a :: p.1, p.2)

/-- CPython `scheme_chars`: ASCII letters, digits, `+`, `-`, `.`. -/
def isSchemeChar (c : Char) : Bool :=
  c.isAlpha || c.isDigit || c = '+' || c = '-' || c = '.'

/-- Split a string at the first occurrence of `c` (Python `str.split(c, 1)`
when `c` occurs); `none` when `c` does not occur. -/
def splitOnceAt (c : Char) : Str → Option (Str × Str)
  | [] => none
  | a :: t =>
    if a = c then some ([], t)
    else (splitOnceAt c t).map (fun p => (a :: p.1, p.2))

/-- First index of the character `c` in a string (Python `str.find` when
the character occurs). -/
def findIdxOf? (c : Char) : Str → Option Nat
  | [] => none
  | a :: t => if a = c then some 0 else (findIdxOf? c t).map (fun i => i + 1)

/-- CPython scheme extraction inside `urlsplit`: the text before the first
`:` is a scheme when the colon is not first, the head is an ASCII letter and
every character is a scheme character; the scheme is lowercased.  Returns
`none` when no scheme is recognised (the caller then uses the default). -/
def schemeSplit (u : Str) : Option (Str × Str) :=
  match findIdxOf? ':' u with
  | some i =>
    if 0 < i ∧ (u.headD ' ').isAlpha = true ∧ (u.take i).all isSchemeChar = true
    then some ((u.take i).map Char.toLower, u.drop (i + 1))
    else none
  | none => none

/-- The result of CPython `urlsplit`. -/
structure SplitUrl where
  scheme : Str
  netloc : Str
  path : Str
  query : Str
  fragment : Str
deriving DecidableEq, Repr

/-- Scheme extraction with the caller's default (first step of `urlsplit`). -/
def schemeDefault (url defaultScheme : Str) : Str × Str :=
  match schemeSplit url with
  | some p => p
  | none => (defaultScheme, url)

/-- Authority extraction (second step of `urlsplit`): only when the
remainder starts with `//`. -/
def netlocSplit : Str → Str × Str
  | '/' :: '/' :: rest => splitNetloc rest
  | other => ([], other)

/-- Fragment split at the first `#` (third step of `urlsplit`). -/
def fragSplit (s : Str) : Str × Str :=
  match splitOnceAt '#' s with
  | some q => q
  | none => (s, [])

/-- Query split at the first `?` (fourth step of `urlsplit`). -/
def querySplit (s : Str) : Str × Str :=
  match splitOnceAt '?' s with
  | some q => q
  | none => (s, [])

/-- CPython `urlsplit(url, scheme=default, allow_fragments=True)`. -/
def pyUrlsplit (url : Str) (defaultScheme : Str) : SplitUrl :=
  ⟨(schemeDefault url defaultScheme).1,
   (netlocSplit (schemeDefault url defaultScheme).2).1,
   (querySplit (fragSplit (netlocSplit (schemeDefault url defaultScheme).2).2).1).1,
   (querySplit (fragSplit (netlocSplit (schemeDefault url defaultScheme).2).2).1).2,
   (fragSplit (netlocSplit (schemeDefault url defaultScheme).2).2).2⟩

/-- CPython `uses_relative`. -/
def usesRelative : List Str :=
  [[], pys "ftp", pys "http", pys "gopher", pys "nntp", pys "imap",
   pys "wais", pys "file", pys "https", pys "shttp", pys "mms",
   pys "prospero", pys "rtsp", pys "rtspu", pys "sftp", pys "svn",
   pys "svn+ssh", pys "ws", pys "wss"]

/-- CPython `uses_netloc`. -/
def usesNetloc : List Str :=
  [[], pys "ftp", pys "http", pys "gopher", pys "nntp", pys "telnet",
   pys "imap", pys "wais", pys "file", pys "mms", pys "https", pys "shttp",
   pys "snews", pys "prospero", pys "rtsp", pys "rtspu", pys "rsync",
   pys "svn", pys "svn+ssh", pys "sftp", pys "nfs", pys "git",
   pys "git+ssh", pys "ws", pys "wss"]

/-- CPython `uses_params`. -/
def usesParams : List Str :=
  [[], pys "ftp", pys "hdl", pys "prospero", pys "http", pys "imap",
   pys "https", pys "shttp", pys "rtsp", pys "rtspu", pys "sip",
   pys "sips", pys "mms", pys "sftp", pys "tel"]

/-- Last index of `c` in `s` (Python `str.rfind` when present). -/
def rfindIdx? (c : Char) (s : Str) : Option Nat :=
  match findIdxOf? c s.reverse with
  | some j => some (s.length - 1 - j)
  | none => none

/-- First index of `c` in `s` at or after `start` (Python `str.find(c, start)`). -/
def findIdxFrom? (c : Char) (start : Nat) (s : Str) : Option Nat :=
  (findIdxOf? c (s.drop start)).map (fun i => i + start)

/-- Cut a string at a located parameter separator (`url[:i], url[i+1:]`);
identity with empty parameters when the separator was not found. -/
def splitParamsAt (p : Str) : Option Nat → Str × Str
  | some i => (p.take i, p.drop (i + 1))
  | none => (p, [])

/-- CPython `_splitparams`: split the parameters off the last path segment. -/
def splitParams (url : Str) : Str × Str :=
  if url.contains '/' then
    match rfindIdx? '/' url with
    | some r => splitParamsAt url (findIdxFrom? ';' r url)
    | none => (url, [])
  else
    splitParamsAt url (findIdxOf? ';' url)

/-- The result of CPython `urlparse`. -/
structure ParsedUrl where
  scheme : Str
  netloc : Str
  path : Str
  params : Str
  query : Str
  fragment : Str
deriving DecidableEq, Repr

/-- The parameter split of `urlparse`, applied when the scheme uses
parameters and the path contains a `;`. -/
def paramsSplitIf (scheme p : Str) : Str × Str :=
  if scheme ∈ usesParams ∧ p.contains ';' = true then splitParams p else (p, [])

/-- CPython `urlparse(url, scheme=default, allow_fragments=True)`. -/
def pyUrlparse (url : Str) (defaultScheme : Str) : ParsedUrl :=
  ⟨(pyUrlsplit url defaultScheme).scheme,
   (pyUrlsplit url defaultScheme).netloc,
   (paramsSplitIf (pyUrlsplit url defaultScheme).scheme (pyUrlsplit url defaultScheme).path).1,
   (paramsSplitIf (pyUrlsplit url defaultScheme).scheme (pyUrlsplit url defaultScheme).path).2,
   (pyUrlsplit url defaultScheme).query,
   (pyUrlsplit url defaultScheme).fragment⟩

/-- Re-attach parameters to a path (the inverse step used by `urlunparse`). -/
def joinParams (p : Str × Str) : Str :=
  if p.2 = [] then p.1 else p.1 ++ ';' :: p.2

/-- The leading-slash fix inside `urlunsplit`. -/
def ensureSlash (u : Str) : Str :=
  if u ≠ [] ∧ u.take 1 ≠ ['/'] then '/' :: u else u

/-- CPython `urlunsplit`. -/
def pyUrlunsplit (scheme netloc url query fragment : Str) : Str :=
  let url1 :=
    if netloc ≠ [] ∨ (url ≠ [] ∧ url.take 2 = pys "//") then
      pys "//" ++ netloc ++ ensureSlash url
    else url
  let url2 := if scheme ≠ [] then scheme ++ ':' :: url1 else url1
  let url3 := if query ≠ [] then url2 ++ '?' :: query else url2
  if fragment ≠ [] then url3 ++ '#' :: fragment else url3

/-- CPython `urlunparse`. -/
def pyUrlunparse (p : ParsedUrl) : Str :=
  pyUrlunsplit p.scheme p.netloc (joinParams (p.path, p.params)) p.query p.fragment

/-- `segments[1:-1] = filter(None, segments[1:-1])` applied to the tail of
the segment list: drop empty segments except the last. -/
def keepNonEmptyMiddle : List Str → List Str
  | [] => []
  | [x] => [x]
  | x :: rest =>
    if x = [] then keepNonEmptyMiddle rest else x :: keepNonEmptyMiddle rest

/-- Filter redundant empty segments, keeping the first and last. -/
def filterSegments : List Str → List Str
  | [] => []
  | x :: rest => x :: keepNonEmptyMiddle rest

/-- The `..` / `.` resolution loop of CPython `urljoin`. -/
def resolveSegments (acc : List Str) : List Str → List Str
  | [] => acc
  | seg :: rest =>
    if seg = pys ".." then resolveSegments acc.dropLast rest
    else if seg = pys "." then resolveSegments acc rest
    else resolveSegments (acc ++ [seg]) rest

/-- Python `'/'.join(parts)`. -/
def joinWith (sep : Char) : List Str → Str
  | [] => []
  | [x] => x
  | x :: y :: rest => x ++ sep :: joinWith sep (y :: rest)

/-- The base-path segments used for merging (`base_parts`, with the final
non-empty segment deleted). -/
def basePartsOf (bpath : Str) : List Str :=
  if (pySplitOn '/' bpath).getLastD [] ≠ [] then (pySplitOn '/' bpath).dropLast
  else pySplitOn '/' bpath

/-- The merged segment list of `urljoin` (root-relative paths ignore the
base; otherwise merge and filter redundant empty inner segments). -/
def segmentsOf (bpath upath : Str) : List Str :=
  if upath.take 1 = ['/'] then pySplitOn '/' upath
  else filterSegments (basePartsOf bpath ++ pySplitOn '/' upath)

/-- The resolved segment list (after `..` and `.` processing, with the
trailing empty segment restored when the last segment was a dot). -/
def resolvedOf (bpath upath : Str) : List Str :=
  if (segmentsOf bpath upath).getLastD [] = pys "."
      ∨ (segmentsOf bpath upath).getLastD [] = pys ".."
  then resolveSegments [] (segmentsOf bpath upath) ++ [[]]
  else resolveSegments [] (segmentsOf bpath upath)

/-- The resolved path of `urljoin` (`'/'.join(resolved_path) or '/'`). -/
def resolvePath (bpath upath : Str) : Str :=
  if joinWith '/' (resolvedOf bpath upath) = [] then ['/']
  else joinWith '/' (resolvedOf bpath upath)

/-- The netloc chosen by `urljoin` when the URL's own netloc is empty. -/
def joinNetloc (bp up : ParsedUrl) : Str :=
  if up.scheme ∈ usesNetloc then (if up.netloc ≠ [] then up.netloc else bp.netloc)
  else up.netloc

/-- The body of CPython `urljoin` on the two parse results. -/
def pyUrljoinCore (bp up : ParsedUrl) (url : Str) : Str :=
  if up.scheme ≠ bp.scheme ∨ up.scheme ∉ usesRelative then url
  else if up.scheme ∈ usesNetloc ∧ up.netloc ≠ [] then
    pyUrlunparse ⟨up.scheme, up.netloc, up.path, up.params, up.query, up.fragment⟩
  else if up.path = [] ∧ up.params = [] then
    pyUrlunparse ⟨up.scheme, joinNetloc bp up, bp.path, bp.params,
      (if up.query = [] then bp.query else up.query), up.fragment⟩
  else
    pyUrlunparse ⟨up.scheme, joinNetloc bp up, resolvePath bp.path up.path,
      up.params, up.query, up.fragment⟩

/-- CPython `urljoin(base, url, allow_fragments=True)`. -/
def pyUrljoin (base url : Str) : Str :=
  if base = [] then url
  else if url = [] then base
  else pyUrljoinCore (pyUrlparse base []) (pyUrlparse url (pyUrlparse base []).scheme) url

/-- CPython `urldefrag`, returning only the defragmented URL. -/
def pyUrldefrag (url : Str) : Str :=
  if url.contains '#' then
    let p := pyUrlparse url []
    pyUrlunparse ⟨p.scheme, p.netloc, p.path, p.params, p.query, []⟩
  else url

/-! ## `src/url_utils.py` -/

/-- `normalize_url`, first two steps: `urljoin` then `urldefrag`
(crawler source: `absolute_url = urljoin(base_url, url)`,
`defragged_url, _ = urldefrag(absolute_url)`). -/
def defraggedResolved (url base_url : Str) : Str :=
  pyUrldefrag (pyUrljoin base_url url)

/-- The trailing-slash heuristic's condition:
`defragged_url.endswith('/') and '.' in defragged_url.split('/')[-2]`. -/
def stripSlashCond (d : Str) : Bool :=
  endsWithChar '/' d && (secondLast (pySplitOn '/' d)).contains '.'

/-- The trailing-slash normalisation step of `normalize_url`. -/
def stripSlash (d : Str) : Str :=
  if stripSlashCond d then pyRstrip '/' d else d

/-- `url_utils.normalize_url`. -/
def normalize_url (url base_url : Str) : Str :=
  stripSlash (defraggedResolved url base_url)

/-- `url_utils.get_domain`: `urlparse(url).netloc.lower()`. -/
def get_domain (url : Str) : Str :=
  pyLower (pyUrlparse url []).netloc

/-- `url_utils.is_internal_link`. -/
def is_internal_link (url base_url : Str) : Bool :=
  let parsedUrl := pyUrlparse url []
  let baseDomain := get_domain base_url
  if parsedUrl.netloc = [] then true
  else pyLower parsedUrl.netloc = baseDomain

/-- `url_utils.is_within_doc_path`. -/
def is_within_doc_path (url base_url : Str) : Bool :=
  let pu := pyUrlparse url []
  let pb := pyUrlparse base_url []
  if pyLower pu.netloc ≠ pyLower pb.netloc then false
  else
    let basePath := pyRstrip '/' pb.path
    basePath.isPrefixOf pu.path

/-- The `excluded_extensions` set of `is_valid_doc_page`. -/
def excludedExtensions : List Str :=
  [pys ".css", pys ".js", pys ".png", pys ".jpg", pys ".jpeg", pys ".gif",
   pys ".svg", pys ".ico", pys ".pdf", pys ".zip", pys ".tar", pys ".gz",
   pys ".exe", pys ".dmg", pys ".msi", pys ".mp4", pys ".mp3", pys ".webm",
   pys ".woff", pys ".woff2", pys ".ttf", pys ".eot", pys ".json",
   pys ".xml", pys ".yaml", pys ".yml"]

/-- The `excluded_patterns` list of `is_valid_doc_page`. -/
def excludedPatterns : List Str :=
  [pys "/api/", pys "/assets/", pys "/static/", pys "/images/", pys "/css/",
   pys "/js/", pys "/download/", pys "/downloads/", pys "/cdn/",
   pys "/_next/", pys "/_nuxt/", pys "/blog/", pys "/knowledge/",
   pys "/knowledge?", pys "/lifecycle/", pys "/partners/", pys "/support/",
   pys "/saml_login", pys "/find/", pys "/third-party-licenses/",
   pys "/sites/default/files/", pys "/taxonomy/", pys "/oem-",
   pys "/gpl-source-code", pys "/reference/eulas", pys "/support-programs",
   pys "/professional-services"]

/-- `url_utils.is_valid_doc_page`. -/
def is_valid_doc_page (url : Str) : Bool :=
  let path := pyLower (pyUrlparse url []).path
  if excludedExtensions.any (fun e => e.isSuffixOf path) then false
  else if excludedPatterns.any (fun p => pyIn p (pyLower path)) then false
  else true

/-- The skip test of `extract_links`:
`not href or href.startswith(('javascript:', 'mailto:', 'tel:', '#'))`. -/
def skipHref (href : Str) : Bool :=
  href.isEmpty || (pys "javascript:").isPrefixOf href
    || (pys "mailto:").isPrefixOf href || (pys "tel:").isPrefixOf href
    || ['#'].isPrefixOf href

/-- The body of the `for anchor in soup.find_all` loop of `extract_links`:
skip non-navigational hrefs, normalise, filter, insert into the set. -/
def extractStep (base_url : Str) (links : List Str) (href : Str) : List Str :=
  if skipHref href then links
  else if is_internal_link (normalize_url href base_url) base_url
      && is_valid_doc_page (normalize_url href base_url) then
    if links.contains (normalize_url href base_url) then links
    else links ++ [normalize_url href base_url]
  else links

/-- `url_utils.extract_links`.  HTML parsing is abstracted by `anchors`,
which yields the `href` attributes of the anchor tags of a markup string in
document order.  The Python function collects results in a `set` and
returns `list(set)`, whose order CPython leaves unspecified; the model
returns first-insertion order. -/
def extract_links (anchors : Str → List Str) (html_content base_url : Str) : List Str :=
  (anchors html_content).foldl (extractStep base_url) []

-- Sanity checks against the Python test-suite expectations (test_url_utils.py).
example :
    normalize_url (pys "intro.html") (pys "https://docs.example.com/guide/start/")
      = pys "https://docs.example.com/guide/start/intro.html" := by decide

example :
    normalize_url (pys "/api/docs.html") (pys "https://docs.example.com/deep/nested/path/")
      = pys "https://docs.example.com/api/docs.html" := by decide

example :
    normalize_url (pys "page.html#section-2") (pys "https://docs.example.com/")
      = pys "https://docs.example.com/page.html" := by decide

example :
    normalize_url (pys "../overview.html") (pys "https://docs.example.com/guide/start/")
      = pys "https://docs.example.com/guide/overview.html" := by decide

example : is_internal_link (pys "https://docs.example.com/page.html") (pys "https://Docs.Example.COM/") = true := by decide

example : is_internal_link (pys "//external.example.org/page") (pys "https://docs.example.com/") = false := by decide

example : is_valid_doc_page (pys "https://docs.example.com/style.css") = false := by decide

example : is_valid_doc_page (pys "https://docs.example.com/guide/") = true := by decide

example : get_domain (pys "https://DOCS.EXAMPLE.COM/page") = pys "docs.example.com" := by decide

/-! ## `src/crawler.py` -/

/-- The apostrophe character (several source phrases contain one). -/
def apos : Char := Char.ofNat 39

/-- The first entry of `crawler.ERROR_PAGE_PATTERNS`:
`"the content you're looking for is not here"`. -/
def softNotFoundPhrase : Str :=
  pys "the content you" ++ [apos] ++ pys "re looking for is not here"

/-- `crawler.ERROR_PAGE_PATTERNS`. -/
def ERROR_PAGE_PATTERNS : List Str :=
  [softNotFoundPhrase,
   pys "page not found",
   pys "this page does not exist",
   pys "content not available",
   pys "404 error",
   pys "404 - page not found",
   pys "the requested page could not be found"]

/-- `crawler.is_error_page`. -/
def is_error_page (html_content : Str) : Bool :=
  let contentLower := pyLower html_content
  ERROR_PAGE_PATTERNS.any (fun pat => pyIn pat contentLower)

/-- The bot-detection phrase checked case-sensitively by `fetch_page` and by
the crawl loop: `'JavaScript is disabled'`. -/
def jsDisabledPhrase : Str := pys "JavaScript is disabled"

/-- The human-verification phrase checked against the lowercased content by
`fetch_page`. -/
def robotPhrase : Str := pys "verify that you" ++ [apos] ++ pys "re not a robot"

/-- `WebCrawler.fetch_page`, as a function of the rendered content of the
first read (`c1`) and of the read after the bot-detection wait (`c2`).
Browser mechanics (context resets, timeouts raising `PlaywrightTimeout`,
which yield `None`) are outside this pure fragment. -/
def fetch_page (c1 c2 : Str) : Option Str :=
  if pyIn jsDisabledPhrase c1 || pyIn robotPhrase (pyLower c1) then
    if pyIn jsDisabledPhrase c2 then none else some c2
  else some c1

/-- `crawler.CrawledPage`. -/
structure CrawledPage where
  url : Str
  title : Str
  html_content : Str
  depth : Nat
deriving DecidableEq, Repr

/-- The environment a crawl runs against: the relevant `CrawlerConfig`
fields plus the external collaborators (the composed fetch capability, the
anchor extraction of BeautifulSoup and the title extraction of
`get_page_title`, both abstracted). -/
structure CrawlEnv where
  base_url : Str
  max_depth : Nat
  fetch : Str → Option Str
  anchors : Str → List Str
  titleOf : Str → Str

/-- The mutable state of `WebCrawler.crawl`: the frontier queue, the visited
set (as a duplicate-free list in insertion order) and the `CrawlResult`
lists.  `enqueued` and `dropped` are ghost fields: `enqueued` records every
URL ever appended to the queue, `dropped` records every dequeued entry
discarded by the max-depth test; neither influences control flow. -/
structure CrawlState where
  queue : List (Str × Nat)
  visited : List Str
  pages : List CrawledPage
  failed_urls : List Str
  skipped_urls : List Str
  enqueued : List Str
  dropped : List Str
deriving Repr

/-- Modelled from the spec: `crawler.py` imports `rewrite_versioned_url`
from `url_utils`, but `url_utils.py` defines no such function, so the
repository contains no body for it.  The spec's scheduler step (§4.5 f)
prescribes only re-normalisation against the current URL and an in-path
re-check against the crawl's base, with no URL rewriting, so the missing
function is modelled as the identity on its first argument. -/
def rewrite_versioned_url (url base_url : Str) : Str := url

/-- The normalised-and-rewritten form a discovered link takes inside the
`for link in links` loop of `WebCrawler.crawl`:
`normalize_url(link, current_url)` then `rewrite_versioned_url(..., base)`. -/
def linkUrl (env : CrawlEnv) (current link : Str) : Str :=
  rewrite_versioned_url (normalize_url link current) env.base_url

/-- The body of the `for link in links` loop of `WebCrawler.crawl`. -/
def processLink (env : CrawlEnv) (current : Str) (depth : Nat)
    (st : CrawlState) (link : Str) : CrawlState :=
  if st.visited.contains (linkUrl env current link) then st
  else if !(is_internal_link (linkUrl env current link) env.base_url) then
    { st with skipped_urls := st.skipped_urls ++ [linkUrl env current link] }
  else if !(is_within_doc_path (linkUrl env current link) env.base_url) then
    { st with skipped_urls := st.skipped_urls ++ [linkUrl env current link] }
  else
    { st with visited := st.visited ++ [linkUrl env current link],
              queue := st.queue ++ [(linkUrl env current link, depth + 1)],
              enqueued := st.enqueued ++ [linkUrl env current link] }

/-- One iteration of the `while queue` loop of `WebCrawler.crawl`, applied
to a dequeued entry `(url, depth)` (the politeness delay has no effect on
the state and is not modelled). -/
def crawlStep (env : CrawlEnv) (st : CrawlState) (url : Str) (depth : Nat) :
    CrawlState :=
  if depth > env.max_depth then { st with dropped := st.dropped ++ [url] }
  else
    match env.fetch url with
    | none => { st with failed_urls := st.failed_urls ++ [url] }
    | some html =>
      if pyIn jsDisabledPhrase html then
        { st with failed_urls := st.failed_urls ++ [url] }
      else if is_error_page html then
        { st with failed_urls := st.failed_urls ++ [url] }
      else
        let page : CrawledPage := ⟨url, env.titleOf html, html, depth⟩
        let st1 := { st with pages := st.pages ++ [page] }
        let links := extract_links env.anchors html url
        links.foldl (processLink env url depth) st1

/-- The `while queue` loop of `WebCrawler.crawl`, with explicit fuel (the
loop terminates because depths are bounded, but the model does not rely on
that). -/
def crawlLoop (env : CrawlEnv) : Nat → CrawlState → CrawlState
  | 0, st => st
  | fuel + 1, st =>
    match st.queue with
    | [] => st
    | (url, depth) :: rest =>
      crawlLoop env fuel (crawlStep env { st with queue := rest } url depth)

/-- The initial state built by `WebCrawler.crawl`: the normalised start URL
is enqueued at depth 0 and marked visited. -/
def initState (env : CrawlEnv) : CrawlState :=
  let start := normalize_url env.base_url env.base_url
  ⟨[(start, 0)], [start], [], [], [], [start], []⟩

/-- `WebCrawler.crawl`. -/
def crawl (env : CrawlEnv) (fuel : Nat) : CrawlState :=
  crawlLoop env fuel (initState env)

/-- The URLs of the pages list of a state. -/
def pageUrls (st : CrawlState) : List Str := st.pages.map CrawledPage.url

/-! ## Module-level names (for the import contract of `crawler.py`) -/

/-- The names bound at module level by `src/url_utils.py` (its function
definitions, in source order). -/
def urlUtilsDefinedNames : List Str :=
  [pys "normalize_url", pys "get_domain", pys "is_internal_link",
   pys "is_within_doc_path", pys "is_valid_doc_page", pys "extract_links",
   pys "get_page_title"]

/-- The names `src/crawler.py` line 20 imports from `.url_utils`. -/
def crawlerImportsFromUrlUtils : List Str :=
  [pys "normalize_url", pys "rewrite_versioned_url", pys "extract_links",
   pys "get_page_title", pys "is_internal_link", pys "is_within_doc_path"]

/-! ## Concrete crawl scenarios

Scenario A is the end-to-end scenario of spec §8: a root page linking to
`page1.html`, which links to `page2.html`, which links to `page3.html`.
Contents are abstract markers; `anchors` recovers the hrefs of each page.
-/

def rootA : Str := pys "https://docs.example.com"

def urlP1A : Str := pys "https://docs.example.com/page1.html"

def urlP2A : Str := pys "https://docs.example.com/page2.html"

def contentRootA : Str := pys "rootA"

def contentP1A : Str := pys "p1A"

def contentP2A : Str := pys "p2A"

def anchorsA (h : Str) : List Str :=
  if h = contentRootA then [pys "page1.html"]
  else if h = contentP1A then [pys "page2.html"]
  else if h = contentP2A then [pys "page3.html"]
  else []

def fetchA (u : Str) : Option Str :=
  if u = rootA then some contentRootA
  else if u = urlP1A then some contentP1A
  else if u = urlP2A then some contentP2A
  else none

/-- Scenario A: `maxDepth = 1`, base `https://docs.example.com/`. -/
def envA : CrawlEnv := ⟨pys "https://docs.example.com/", 1, fetchA, anchorsA, fun h => h⟩

def finalA : CrawlState := crawl envA 10

/-- Scenario B: the same site crawled with `maxDepth = 0`. -/
def envB : CrawlEnv := ⟨pys "https://docs.example.com/", 0, fetchA, anchorsA, fun h => h⟩

def finalB : CrawlState := crawl envB 10

/-! Scenario C: base `https://docs.example.com/guide/`; the root links to a
stylesheet (fails the document-like check), to `/other/x` (fails the
in-path check) and to `page1.html`; `page1.html` links to `/other/x` again. -/

def baseC : Str := pys "https://docs.example.com/guide/"

def urlP1C : Str := pys "https://docs.example.com/guide/page1.html"

def cssC : Str := pys "https://docs.example.com/guide/style.css"

def otherC : Str := pys "https://docs.example.com/other/x"

def contentRootC : Str := pys "rootC"

def contentP1C : Str := pys "p1C"

def anchorsC (h : Str) : List Str :=
  if h = contentRootC then [pys "style.css", pys "/other/x", pys "page1.html"]
  else if h = contentP1C then [pys "/other/x"]
  else []

def fetchC (u : Str) : Option Str :=
  if u = baseC then some contentRootC
  else if u = urlP1C then some contentP1C
  else none

def envC : CrawlEnv := ⟨baseC, 2, fetchC, anchorsC, fun h => h⟩

def finalC : CrawlState := crawl envC 10

/-! Scenario D: the root page renders, on both the first read and the read
after the bot-detection wait, a page containing the human-verification
phrase but not the scripting-disabled notice. -/

def contentD : Str :=
  pys "please verify that you" ++ [apos] ++ pys "re not a robot now"

def fetchD (u : Str) : Option Str :=
  if u = rootA then fetch_page contentD contentD else none

def envD : CrawlEnv := ⟨pys "https://docs.example.com/", 1, fetchD, fun _ => [], fun h => h⟩

def finalD : CrawlState := crawl envD 5

-- Sanity checks of the scenario computations.
example : pageUrls finalA = [rootA, urlP1A] := by decide
example : finalA.queue = [] ∧ finalA.failed_urls = [] ∧ finalA.skipped_urls = [] := by decide
example : finalA.enqueued = [rootA, urlP1A, urlP2A] ∧ finalA.dropped = [urlP2A] := by decide
example : finalB.visited = [rootA, urlP1A] ∧ pageUrls finalB = [rootA] := by decide
example : finalB.failed_urls = [] ∧ finalB.dropped = [urlP1A] ∧ finalB.queue = [] := by decide
example : finalC.skipped_urls = [otherC, otherC] := by decide
example : pageUrls finalC = [baseC, urlP1C] ∧ finalC.queue = [] := by decide
example : fetch_page contentD contentD = some contentD := by decide
example : pageUrls finalD = [rootA] ∧ finalD.failed_urls = [] := by decide

-- Sanity checks of the normalization counterexample computations.
example :
    normalize_url (pys "https://docs.example.com/") (pys "https://docs.example.com/")
      = pys "https://docs.example.com" := by decide
example :
    normalize_url (pys "http://h/x.y?/") (pys "http://h/") = pys "http://h/x.y?" := by decide
example :
    normalize_url (pys "http://h/x.y?") (pys "http://h/") = pys "http://h/x.y" := by decide
example :
    (pyUrlparse (pys "https://docs.example.com/") []).path = pys "/" := by decide

/-! ## Basic lemmas about the string helpers -/

lemma endsWithChar_iff (c : Char) (s : Str) :
    endsWithChar c s = true ↔ s.getLast? = some c := by
  simp [endsWithChar]

lemma pyRstrip_ne_self (c : Char) (s : Str) (h : s.getLast? = some c) :
    pyRstrip c s ≠ s := by
  cases hrev : s.reverse with
  | nil =>
    rw [List.reverse_eq_nil_iff] at hrev
    subst hrev
    simp at h
  | cons a t =>
    have hhead : s.reverse.head? = s.getLast? := by
      rw [List.head?_reverse]
    rw [hrev, h] at hhead
    have ha : a = c := by
      simpa using hhead
    intro heq
    have hslen : s.length = t.length + 1 := by
      have := congrArg List.length hrev
      simpa using this
    have hle : (pyRstrip c s).length ≤ t.length := by
      unfold pyRstrip
      rw [hrev, List.dropWhile_cons, if_pos (by simp [ha])]
      simpa using (@List.dropWhile_sublist _ t (fun x => decide (x = c))).length_le
    rw [heq] at hle
    omega

/-! ## Claim C1 -/

/-- C1: the link-processing step of the scheduler is not executable as
specified: `crawler.py` imports the name `rewrite_versioned_url` from
`url_utils`, but `url_utils.py` does not define that name, so importing the
crawler module (and hence every crawl) raises `ImportError` before any
crawl algorithm can run. -/
theorem c1_rewrite_versioned_url_missing :
    pys "rewrite_versioned_url" ∈ crawlerImportsFromUrlUtils
      ∧ pys "rewrite_versioned_url" ∉ urlUtilsDefinedNames := by
  decide

/-! ## Claim C3 -/

/-- C3 counterexample: for `https://docs.example.com/` (resolved against
itself) the path is just `/`, whose final segment before the trailing slash
is empty and contains no dot, so the claim says the trailing slash is
preserved; the code removes it, because the heuristic splits the whole URL
string and thus tests the dotted hostname. -/
theorem c3_counterexample :
    (pyUrlparse (defraggedResolved (pys "https://docs.example.com/")
        (pys "https://docs.example.com/")) []).path = pys "/"
    ∧ (secondLast (pySplitOn '/'
        (pyUrlparse (defraggedResolved (pys "https://docs.example.com/")
          (pys "https://docs.example.com/")) []).path)).contains '.' = false
    ∧ normalize_url (pys "https://docs.example.com/") (pys "https://docs.example.com/")
        = pys "https://docs.example.com"
    ∧ normalize_url (pys "https://docs.example.com/") (pys "https://docs.example.com/")
        ≠ defraggedResolved (pys "https://docs.example.com/") (pys "https://docs.example.com/") := by
  decide

/-- C3 (amended): `normalize_url` removes a trailing slash from the
resolved, defragmented URL if and only if the segment preceding the final
slash of the whole URL string (the element at index -2 of splitting the
full URL on `/`, which is the authority when the path is just `/`)
contains a literal dot; when it does, the result is the defragmented URL
with its trailing slashes stripped, and otherwise the defragmented URL is
returned unchanged. -/
theorem c3_trailing_slash_amended (url base_url : Str) :
    (normalize_url url base_url ≠ defraggedResolved url base_url
      ↔ (endsWithChar '/' (defraggedResolved url base_url) = true
          ∧ (secondLast (pySplitOn '/' (defraggedResolved url base_url))).contains '.' = true))
    ∧ (endsWithChar '/' (defraggedResolved url base_url) = true →
        (secondLast (pySplitOn '/' (defraggedResolved url base_url))).contains '.' = true →
        normalize_url url base_url = pyRstrip '/' (defraggedResolved url base_url)) := by
  have hmain : ∀ d : Str,
      (stripSlash d ≠ d
        ↔ (endsWithChar '/' d = true ∧ (secondLast (pySplitOn '/' d)).contains '.' = true))
      ∧ (endsWithChar '/' d = true →
          (secondLast (pySplitOn '/' d)).contains '.' = true →
          stripSlash d = pyRstrip '/' d) := by
    intro d
    by_cases h1 : endsWithChar '/' d = true
    · by_cases h2 : (secondLast (pySplitOn '/' d)).contains '.' = true
      · have hc : stripSlashCond d = true := by
          unfold stripSlashCond
          rw [h1, h2]
          rfl
        have hs : stripSlash d = pyRstrip '/' d := by
          simp [stripSlash, hc]
        refine ⟨?_, fun _ _ => hs⟩
        rw [hs]
        exact iff_of_true (pyRstrip_ne_self '/' d ((endsWithChar_iff '/' d).mp h1)) ⟨h1, h2⟩
      · have h2' : (secondLast (pySplitOn '/' d)).contains '.' = false := by
          cases hE : (secondLast (pySplitOn '/' d)).contains '.'
          · rfl
          · exact absurd hE h2
        have hc : stripSlashCond d = false := by
          unfold stripSlashCond
          rw [h2']
          exact Bool.and_false _
        have hs : stripSlash d = d := by
          simp [stripSlash, hc]
        refine ⟨?_, fun _ hh2 => absurd hh2 h2⟩
        rw [hs]
        exact iff_of_false (fun h => h rfl) (fun hcon => h2 hcon.2)
    · have h1' : endsWithChar '/' d = false := by
        cases hE : endsWithChar '/' d
        · rfl
        · exact absurd hE h1
      have hc : stripSlashCond d = false := by
        unfold stripSlashCond
        rw [h1']
        exact Bool.false_and _
      have hs : stripSlash d = d := by
        simp [stripSlash, hc]
      refine ⟨?_, fun hh1 _ => absurd hh1 h1⟩
      rw [hs]
      exact iff_of_false (fun h => h rfl) (fun hcon => h1 hcon.1)
  exact ⟨(hmain (defraggedResolved url base_url)).1,
    fun a b => (hmain (defraggedResolved url base_url)).2 a b⟩

/-- C3 witness: the amended theorem applied to a URL whose pre-slash
segment is a dotted filename. -/
theorem c3_witness :
    endsWithChar '/' (defraggedResolved (pys "https://docs.example.com/file.html/")
        (pys "https://docs.example.com/")) = true
    ∧ (secondLast (pySplitOn '/' (defraggedResolved (pys "https://docs.example.com/file.html/")
        (pys "https://docs.example.com/")))).contains '.' = true
    ∧ normalize_url (pys "https://docs.example.com/file.html/") (pys "https://docs.example.com/")
        = pyRstrip '/' (defraggedResolved (pys "https://docs.example.com/file.html/")
            (pys "https://docs.example.com/")) :=
  ⟨by decide, by decide,
    (c3_trailing_slash_amended (pys "https://docs.example.com/file.html/")
      (pys "https://docs.example.com/")).2 (by decide) (by decide)⟩

/-! ## Claim C4 -/

/-- C4 counterexample: in the §8 scenario (root links `page1.html`, which
links `page2.html`, which links `page3.html`; `maxDepth = 1`) the pages
list is exactly root then page1, but `page2` IS enqueued into the frontier
(at depth 2): the code enqueues every in-scope link and only checks the
depth bound at dequeue time. -/
theorem c4_counterexample :
    pageUrls finalA = [rootA, urlP1A] ∧ urlP2A ∈ finalA.enqueued := by
  decide

/-- C4 (amended): in the §8 scenario with `maxDepth = 1` the crawl produces
exactly the root page and page1, in that order, and page2 is enqueued at
depth 2 but silently discarded at dequeue: it is never fetched, producing
neither a page nor a failure. -/
theorem c4_depth_scenario_amended :
    pageUrls finalA = [rootA, urlP1A]
    ∧ finalA.queue = []
    ∧ finalA.enqueued = [rootA, urlP1A, urlP2A]
    ∧ finalA.dropped = [urlP2A]
    ∧ urlP2A ∉ pageUrls finalA
    ∧ urlP2A ∉ finalA.failed_urls
    ∧ (∀ p ∈ finalA.pages, p.depth ≤ 1) := by
  decide

/-! ## Claim C9 -/

/-- C9: for base `https://docs.example.com/guide/` the scope predicates
accept `https://docs.example.com/guide/x`, reject
`https://docs.example.com/blog/x` (same host, path not under the base
prefix) and reject `https://api.example.com/guide/x` (host differs); and in
general `is_within_doc_path` holds if and only if the two URLs have the
same host case-insensitively and the URL's path starts with the base's
path with trailing slashes stripped. -/
theorem c9_scope_containment :
    (is_internal_link (pys "https://docs.example.com/guide/x")
        (pys "https://docs.example.com/guide/") = true
      ∧ is_within_doc_path (pys "https://docs.example.com/guide/x")
          (pys "https://docs.example.com/guide/") = true
      ∧ is_valid_doc_page (pys "https://docs.example.com/guide/x") = true)
    ∧ (is_internal_link (pys "https://docs.example.com/blog/x")
        (pys "https://docs.example.com/guide/") = true
      ∧ is_within_doc_path (pys "https://docs.example.com/blog/x")
          (pys "https://docs.example.com/guide/") = false)
    ∧ (is_internal_link (pys "https://api.example.com/guide/x")
        (pys "https://docs.example.com/guide/") = false
      ∧ is_within_doc_path (pys "https://api.example.com/guide/x")
          (pys "https://docs.example.com/guide/") = false)
    ∧ ∀ u bb : Str, is_within_doc_path u bb = true
        ↔ (pyLower (pyUrlparse u []).netloc = pyLower (pyUrlparse bb []).netloc
            ∧ (pyRstrip '/' (pyUrlparse bb []).path).isPrefixOf (pyUrlparse u []).path = true) := by
  refine ⟨by decide, by decide, by decide, ?_⟩
  intro u bb
  unfold is_within_doc_path
  by_cases h : pyLower (pyUrlparse u []).netloc = pyLower (pyUrlparse bb []).netloc
  · rw [if_neg (not_not_intro h)]
    simp [h]
  · rw [if_pos h]
    simp [h]

/-! ## Claim C10 -/

/-- C10: whenever the fetch of a dequeued in-depth URL returns markup whose
lowercased text contains the configured phrase `"the content you're looking
for is not here"`, the page classifies as a soft-404: the URL is appended
to `failed_urls` and no `CrawledPage` is produced, even though the fetch
itself succeeded. -/
theorem c10_soft404_failed (env : CrawlEnv) (st : CrawlState) (url html : Str)
    (depth : Nat) (hd : depth ≤ env.max_depth) (hf : env.fetch url = some html)
    (hp : pyIn softNotFoundPhrase (pyLower html) = true) :
    is_error_page html = true
    ∧ (crawlStep env st url depth).failed_urls = st.failed_urls ++ [url]
    ∧ (crawlStep env st url depth).pages = st.pages := by
  have herr : is_error_page html = true := by
    unfold is_error_page ERROR_PAGE_PATTERNS
    simp [hp]
  have hnd : ¬(depth > env.max_depth) := not_lt.mpr hd
  refine ⟨herr, ?_⟩
  unfold crawlStep
  rw [if_neg hnd, hf]
  by_cases hjs : pyIn jsDisabledPhrase html = true
  · simp [hjs]
  · have hjs' : pyIn jsDisabledPhrase html = false := by
      cases hE : pyIn jsDisabledPhrase html
      · rfl
      · exact absurd hE hjs
    simp [hjs', herr]

/-- Scenario E: a page whose (successfully fetched) content carries the
soft-404 phrase. -/
def contentE : Str :=
  pys "alas, the content you" ++ [apos] ++ pys "re looking for is not here."

def fetchE (u : Str) : Option Str :=
  if u = rootA then some contentE else none

def envE : CrawlEnv :=
  ⟨pys "https://docs.example.com/", 1, fetchE, fun _ => [], fun h => h⟩

/-- C10 witness: the soft-404 theorem applied to scenario E at the root. -/
theorem c10_witness :
    (0 ≤ envE.max_depth ∧ envE.fetch rootA = some contentE
      ∧ pyIn softNotFoundPhrase (pyLower contentE) = true)
    ∧ (is_error_page contentE = true
      ∧ (crawlStep envE (initState envE) rootA 0).failed_urls
          = (initState envE).failed_urls ++ [rootA]
      ∧ (crawlStep envE (initState envE) rootA 0).pages = (initState envE).pages) :=
  ⟨⟨by decide, by decide, by decide⟩,
   c10_soft404_failed envE (initState envE) rootA contentE 0 (by decide) (by decide) (by decide)⟩

/-! ## Claim C2 -/

/-- C2 counterexample: the root's rendered content contains the
human-verification phrase on the first read and still on the read after the
wait, yet `fetch_page` returns it as a success (the persistence re-check
only tests the scripting-disabled notice) and the crawl produces a
`CrawledPage` for the URL instead of recording it as failed. -/
theorem c2_counterexample :
    pyIn robotPhrase (pyLower contentD) = true
    ∧ pyIn jsDisabledPhrase contentD = false
    ∧ fetch_page contentD contentD = some contentD
    ∧ pageUrls finalD = [rootA]
    ∧ finalD.failed_urls = [] := by
  decide

/-- C2 (amended): when the bot-detection signal triggers the wait-and-
refetch and the scripting-disabled notice `'JavaScript is disabled'` is
still present in the re-fetched markup, the fetch returns failure, and a
failed fetch of a dequeued in-depth URL records the URL in `failed_urls`
with no `CrawledPage` produced; persistence of only the human-verification
phrase does not cause failure. -/
theorem c2_bot_detection_amended :
    (∀ c1 c2 : Str,
      (pyIn jsDisabledPhrase c1 || pyIn robotPhrase (pyLower c1)) = true →
      pyIn jsDisabledPhrase c2 = true →
      fetch_page c1 c2 = none)
    ∧ (∀ (env : CrawlEnv) (st : CrawlState) (url : Str) (depth : Nat),
      depth ≤ env.max_depth → env.fetch url = none →
      (crawlStep env st url depth).failed_urls = st.failed_urls ++ [url]
      ∧ (crawlStep env st url depth).pages = st.pages) := by
  constructor
  · intro c1 c2 h1 h2
    unfold fetch_page
    simp [h1, h2]
  · intro env st url depth hd hf
    have hnd : ¬(depth > env.max_depth) := not_lt.mpr hd
    unfold crawlStep
    rw [if_neg hnd, hf]
    exact ⟨rfl, rfl⟩

/-- Content carrying the scripting-disabled notice, for the C2 witness. -/
def contentJ : Str := pys "JavaScript is disabled in your browser"

/-- Environment whose fetch capability always fails, for the C2 witness. -/
def envFail : CrawlEnv :=
  ⟨pys "https://docs.example.com/", 1, fun _ => none, fun _ => [], fun h => h⟩

/-- C2 witness: both halves of the amended theorem at concrete inputs. -/
theorem c2_witness :
    ((pyIn jsDisabledPhrase contentJ || pyIn robotPhrase (pyLower contentJ)) = true
      ∧ fetch_page contentJ contentJ = none)
    ∧ (envFail.fetch rootA = none
      ∧ (crawlStep envFail (initState envFail) rootA 0).failed_urls
          = (initState envFail).failed_urls ++ [rootA]
      ∧ (crawlStep envFail (initState envFail) rootA 0).pages = (initState envFail).pages) :=
  ⟨⟨by decide, c2_bot_detection_amended.1 contentJ contentJ (by decide) (by decide)⟩,
   ⟨rfl, c2_bot_detection_amended.2 envFail (initState envFail) rootA 0 (by decide) rfl⟩⟩

/-! ## Claim C6 -/

lemma extractStep_sound (base : Str) (links : List Str) (href : Str)
    (h : ∀ x ∈ links, is_internal_link x base = true ∧ is_valid_doc_page x = true) :
    ∀ x ∈ extractStep base links href,
      is_internal_link x base = true ∧ is_valid_doc_page x = true := by
  intro x hx
  unfold extractStep at hx
  by_cases hskip : skipHref href = true
  · rw [if_pos hskip] at hx
    exact h x hx
  · rw [if_neg hskip] at hx
    by_cases hfil : (is_internal_link (normalize_url href base) base
        && is_valid_doc_page (normalize_url href base)) = true
    · rw [if_pos hfil] at hx
      by_cases hmem : links.contains (normalize_url href base) = true
      · rw [if_pos hmem] at hx
        exact h x hx
      · rw [if_neg hmem] at hx
        rcases List.mem_append.mp hx with h1 | h2
        · exact h x h1
        · have hx2 : x = normalize_url href base := by
            simpa using h2
          subst hx2
          have hfil2 : is_internal_link (normalize_url href base) base = true
              ∧ is_valid_doc_page (normalize_url href base) = true := by
            simpa using hfil
          exact hfil2
    · rw [if_neg hfil] at hx
      exact h x hx

lemma foldl_extractStep_sound (base : Str) :
    ∀ (hs : List Str) (acc : List Str),
      (∀ x ∈ acc, is_internal_link x base = true ∧ is_valid_doc_page x = true) →
      ∀ x ∈ hs.foldl (extractStep base) acc,
        is_internal_link x base = true ∧ is_valid_doc_page x = true := by
  intro hs
  induction hs with
  | nil =>
    intro acc hacc x hx
    exact hacc x hx
  | cons a t ih =>
    intro acc hacc x hx
    exact ih (extractStep base acc a) (extractStep_sound base acc a hacc) x hx

lemma processLink_skip_spec (env : CrawlEnv) (current : Str) (depth : Nat)
    (st : CrawlState) (link : Str)
    (hvis : st.visited.contains (linkUrl env current link) = false)
    (hfil : ¬(is_internal_link (linkUrl env current link) env.base_url = true
        ∧ is_within_doc_path (linkUrl env current link) env.base_url = true)) :
    (processLink env current depth st link).skipped_urls
        = st.skipped_urls ++ [linkUrl env current link]
    ∧ (processLink env current depth st link).visited = st.visited
    ∧ (processLink env current depth st link).queue = st.queue := by
  unfold processLink
  rw [if_neg (by intro hcontra; rw [hvis] at hcontra; exact Bool.false_ne_true hcontra)]
  by_cases hint : is_internal_link (linkUrl env current link) env.base_url = true
  · have hwithin : is_within_doc_path (linkUrl env current link) env.base_url = false := by
      cases hW : is_within_doc_path (linkUrl env current link) env.base_url
      · rfl
      · exact absurd ⟨hint, hW⟩ hfil
    rw [if_neg (by simp [hint]), if_pos (by simp [hwithin])]
    exact ⟨rfl, rfl, rfl⟩
  · have hint' : is_internal_link (linkUrl env current link) env.base_url = false := by
      cases hI : is_internal_link (linkUrl env current link) env.base_url
      · rfl
      · exact absurd hI hint
    rw [if_pos (by simp [hint'])]
    exact ⟨rfl, rfl, rfl⟩

/-- C6 counterexample: in scenario C the stylesheet link fails the
document-like check but is NOT recorded in `skipped_urls` (links rejected
inside `extract_links` are silently dropped), while the in-path-failing
URL `/other/x` is recorded twice, once per referencing page — it is never
added to the visited set, so it is re-evaluated and re-recorded when a
later page references it. -/
theorem c6_counterexample :
    is_valid_doc_page cssC = false
    ∧ cssC ∉ finalC.skipped_urls
    ∧ is_within_doc_path otherC baseC = false
    ∧ finalC.skipped_urls.count otherC = 2
    ∧ finalC.queue = [] := by
  decide

/-- C6 (amended): a URL that reaches the scheduler's checks (so it passed
the extractor's internal and document-like filters) and is not yet visited
is appended to `skippedUrls` whenever it fails the internal or the in-path
check, with the visited set and frontier unchanged — so such a URL is
re-evaluated and recorded again each time a later page references it; a
URL failing the extractor's own internal or document-like checks is
silently dropped inside `extract_links` and never recorded: every URL the
extractor returns passes both of those checks. -/
theorem c6_scope_rejection_amended :
    (∀ (env : CrawlEnv) (current : Str) (depth : Nat) (st : CrawlState) (link : Str),
      st.visited.contains (linkUrl env current link) = false →
      ¬(is_internal_link (linkUrl env current link) env.base_url = true
          ∧ is_within_doc_path (linkUrl env current link) env.base_url = true) →
      (processLink env current depth st link).skipped_urls
          = st.skipped_urls ++ [linkUrl env current link]
      ∧ (processLink env current depth st link).visited = st.visited
      ∧ (processLink env current depth st link).queue = st.queue)
    ∧ (∀ (anchors : Str → List Str) (html base l : Str),
      l ∈ extract_links anchors html base →
      is_internal_link l base = true ∧ is_valid_doc_page l = true) := by
  constructor
  · intro env current depth st link hvis hfil
    exact processLink_skip_spec env current depth st link hvis hfil
  · intro anchors html base l hl
    exact foldl_extractStep_sound base (anchors html) [] (by intro x hx; cases hx) l hl

/-- C6 witness: the amended theorem applied in scenario C — the first
skip of `/other/x` at the root page, and the membership guarantee for the
link list extracted from the root markup. -/
theorem c6_witness :
    ((initState envC).visited.contains (linkUrl envC baseC (pys "/other/x")) = false
      ∧ (processLink envC baseC 0 (initState envC) (pys "/other/x")).skipped_urls
          = (initState envC).skipped_urls ++ [linkUrl envC baseC (pys "/other/x")]
      ∧ (processLink envC baseC 0 (initState envC) (pys "/other/x")).visited
          = (initState envC).visited)
    ∧ (otherC ∈ extract_links envC.anchors contentRootC baseC
      ∧ is_internal_link otherC baseC = true ∧ is_valid_doc_page otherC = true) :=
  ⟨⟨by decide,
    (c6_scope_rejection_amended.1 envC baseC 0 (initState envC) (pys "/other/x")
      (by decide) (by decide)).1,
    (c6_scope_rejection_amended.1 envC baseC 0 (initState envC) (pys "/other/x")
      (by decide) (by decide)).2.1⟩,
   ⟨by decide,
    c6_scope_rejection_amended.2 envC.anchors contentRootC baseC otherC (by decide)⟩⟩

/-! ## Crawl-loop invariants (claims C5 and C8) -/

/-- Visited-set discipline: the visited set is exactly the set of URLs ever
enqueued (each URL is marked visited at the moment it is accepted into the
frontier), and it holds no duplicates. -/
def VisInv (st : CrawlState) : Prop :=
  st.visited = st.enqueued ∧ st.visited.Nodup

lemma processLink_visinv (env : CrawlEnv) (current : Str) (depth : Nat)
    (st : CrawlState) (link : Str) (h : VisInv st) :
    VisInv (processLink env current depth st link) := by
  obtain ⟨he, hn⟩ := h
  unfold processLink
  by_cases h1 : st.visited.contains (linkUrl env current link) = true
  · rw [if_pos h1]
    exact ⟨he, hn⟩
  · rw [if_neg h1]
    by_cases h2 : (!(is_internal_link (linkUrl env current link) env.base_url)) = true
    · rw [if_pos h2]
      exact ⟨he, hn⟩
    · rw [if_neg h2]
      by_cases h3 : (!(is_within_doc_path (linkUrl env current link) env.base_url)) = true
      · rw [if_pos h3]
        exact ⟨he, hn⟩
      · rw [if_neg h3]
        refine ⟨by rw [he], ?_⟩
        have hmem : linkUrl env current link ∉ st.visited := by
          intro hm
          exact h1 (List.elem_iff.mpr hm)
        rw [List.nodup_append]
        refine ⟨hn, List.nodup_singleton _, ?_⟩
        intro x hx hx'
        have : x = linkUrl env current link := by
          simpa using hx'
        subst this
        exact hmem hx

lemma foldl_processLink_visinv (env : CrawlEnv) (current : Str) (depth : Nat) :
    ∀ (links : List Str) (st : CrawlState), VisInv st →
      VisInv (links.foldl (processLink env current depth) st) := by
  intro links
  induction links with
  | nil =>
    intro st h
    exact h
  | cons a t ih =>
    intro st h
    exact ih (processLink env current depth st a) (processLink_visinv env current depth st a h)

lemma crawlStep_visinv (env : CrawlEnv) (st : CrawlState) (url : Str) (depth : Nat)
    (h : VisInv st) : VisInv (crawlStep env st url depth) := by
  unfold crawlStep
  by_cases hd : depth > env.max_depth
  · rw [if_pos hd]
    exact h
  · rw [if_neg hd]
    cases hf : env.fetch url with
    | none =>
      exact h
    | some html =>
      by_cases hjs : pyIn jsDisabledPhrase html = true
      · simp only [hjs, if_pos rfl]
        exact h
      · have hjs' : pyIn jsDisabledPhrase html = false := by
          cases hE : pyIn jsDisabledPhrase html
          · rfl
          · exact absurd hE hjs
        by_cases herr : is_error_page html = true
        · simp only [hjs', herr]
          exact h
        · have herr' : is_error_page html = false := by
            cases hE : is_error_page html
            · rfl
            · exact absurd hE herr
          simp only [hjs', herr']
          exact foldl_processLink_visinv env url depth _ _ h

lemma crawlLoop_visinv (env : CrawlEnv) :
    ∀ (fuel : Nat) (st : CrawlState), VisInv st → VisInv (crawlLoop env fuel st) := by
  intro fuel
  induction fuel with
  | zero =>
    intro st h
    exact h
  | succ n ih =>
    intro st h
    cases hq : st.queue with
    | nil =>
      unfold crawlLoop
      rw [hq]
      exact h
    | cons e rest =>
      unfold crawlLoop
      rw [hq]
      exact ih _ (crawlStep_visinv env _ e.1 e.2 h)

lemma coe_append (s t : List Str) : ((s ++ t : List Str) : Multiset Str) = ↑s + ↑t :=
  (Multiset.coe_add s t).symm

/-- Accounting invariant of the crawl loop: as a multiset, the visited set
is exactly the pages' URLs plus the failed URLs plus the silently dropped
URLs plus the URLs still in the frontier. -/
def PartInv (st : CrawlState) : Prop :=
  (st.visited : Multiset Str)
    = ↑(pageUrls st) + ↑st.failed_urls + ↑st.dropped + ↑(st.queue.map Prod.fst)

lemma processLink_partinv (env : CrawlEnv) (current : Str) (depth : Nat)
    (st : CrawlState) (link : Str) (h : PartInv st) :
    PartInv (processLink env current depth st link) := by
  unfold processLink
  by_cases h1 : st.visited.contains (linkUrl env current link) = true
  · rw [if_pos h1]
    exact h
  · rw [if_neg h1]
    by_cases h2 : (!(is_internal_link (linkUrl env current link) env.base_url)) = true
    · rw [if_pos h2]
      exact h
    · rw [if_neg h2]
      by_cases h3 : (!(is_within_doc_path (linkUrl env current link) env.base_url)) = true
      · rw [if_pos h3]
        exact h
      · rw [if_neg h3]
        show ((st.visited ++ [linkUrl env current link] : List Str) : Multiset Str)
          = ↑(pageUrls st) + ↑st.failed_urls + ↑st.dropped
            + ↑((st.queue ++ [(linkUrl env current link, depth + 1)]).map Prod.fst)
        rw [coe_append, List.map_append, coe_append, h]
        abel

lemma foldl_processLink_partinv (env : CrawlEnv) (current : Str) (depth : Nat) :
    ∀ (links : List Str) (st : CrawlState), PartInv st →
      PartInv (links.foldl (processLink env current depth) st) := by
  intro links
  induction links with
  | nil =>
    intro st h
    exact h
  | cons a t ih =>
    intro st h
    exact ih (processLink env current depth st a) (processLink_partinv env current depth st a h)

lemma partinv_pages_append (st : CrawlState) (pg : CrawledPage) (url : Str)
    (hurl : pg.url = url)
    (h : (st.visited : Multiset Str)
        = ↑(pageUrls st) + ↑st.failed_urls + ↑st.dropped
          + ↑(st.queue.map Prod.fst) + ↑([url] : List Str)) :
    PartInv { st with pages := st.pages ++ [pg] } := by
  have hpg : pageUrls { st with pages := st.pages ++ [pg] } = pageUrls st ++ [url] := by
    unfold pageUrls
    simp [hurl]
  show (st.visited : Multiset Str)
    = ↑(pageUrls { st with pages := st.pages ++ [pg] }) + ↑st.failed_urls + ↑st.dropped
      + ↑(st.queue.map Prod.fst)
  rw [hpg, coe_append, h]
  abel

lemma crawlStep_partinv (env : CrawlEnv) (st : CrawlState) (url : Str) (depth : Nat)
    (h : (st.visited : Multiset Str)
        = ↑(pageUrls st) + ↑st.failed_urls + ↑st.dropped
          + ↑(st.queue.map Prod.fst) + ↑([url] : List Str)) :
    PartInv (crawlStep env st url depth) := by
  unfold crawlStep
  by_cases hd : depth > env.max_depth
  · rw [if_pos hd]
    show (st.visited : Multiset Str)
      = ↑(pageUrls st) + ↑st.failed_urls + ↑(st.dropped ++ [url]) + ↑(st.queue.map Prod.fst)
    rw [coe_append, h]
    abel
  · rw [if_neg hd]
    cases hf : env.fetch url with
    | none =>
      show (st.visited : Multiset Str)
        = ↑(pageUrls st) + ↑(st.failed_urls ++ [url]) + ↑st.dropped + ↑(st.queue.map Prod.fst)
      rw [coe_append, h]
      abel
    | some html =>
      by_cases hjs : pyIn jsDisabledPhrase html = true
      · simp only [hjs, if_pos rfl]
        show (st.visited : Multiset Str)
          = ↑(pageUrls st) + ↑(st.failed_urls ++ [url]) + ↑st.dropped + ↑(st.queue.map Prod.fst)
        rw [coe_append, h]
        abel
      · have hjs' : pyIn jsDisabledPhrase html = false := by
          cases hE : pyIn jsDisabledPhrase html
          · rfl
          · exact absurd hE hjs
        by_cases herr : is_error_page html = true
        · simp only [hjs', herr]
          show (st.visited : Multiset Str)
            = ↑(pageUrls st) + ↑(st.failed_urls ++ [url]) + ↑st.dropped + ↑(st.queue.map Prod.fst)
          rw [coe_append, h]
          abel
        · have herr' : is_error_page html = false := by
            cases hE : is_error_page html
            · rfl
            · exact absurd hE herr
          simp only [hjs', herr']
          apply foldl_processLink_partinv
          exact partinv_pages_append st ⟨url, env.titleOf html, html, depth⟩ url rfl h

lemma crawlLoop_partinv (env : CrawlEnv) :
    ∀ (fuel : Nat) (st : CrawlState), PartInv st → PartInv (crawlLoop env fuel st) := by
  intro fuel
  induction fuel with
  | zero =>
    intro st h
    exact h
  | succ n ih =>
    intro st h
    cases hq : st.queue with
    | nil =>
      unfold crawlLoop
      rw [hq]
      exact h
    | cons e rest =>
      unfold crawlLoop
      rw [hq]
      refine ih _ (crawlStep_partinv env _ e.1 e.2 ?_)
      show (st.visited : Multiset Str)
        = ↑(pageUrls st) + ↑st.failed_urls + ↑st.dropped + ↑(rest.map Prod.fst) + ↑([e.1] : List Str)
      have hqmap : st.queue.map Prod.fst = [e.1] ++ rest.map Prod.fst := by
        rw [hq]
        rfl
      rw [h, hqmap, coe_append]
      abel

lemma initState_visinv (env : CrawlEnv) : VisInv (initState env) :=
  ⟨rfl, List.nodup_singleton _⟩

lemma initState_partinv (env : CrawlEnv) : PartInv (initState env) := by
  show ((
    [normalize_url env.base_url env.base_url] : List Str) : Multiset Str)
    = ↑([] : List Str) + ↑([] : List Str) + ↑([] : List Str)
      + ↑([(normalize_url env.base_url env.base_url, 0)].map Prod.fst)
  simp

/-! ## Claim C8 -/

/-- C8: during one crawl, each distinct normalized URL is enqueued into
the frontier at most once (the ghost list of all enqueue events has no
duplicates), and this holds because the visited set is updated at the
moment a URL is accepted into the frontier: at every point the visited
set coincides with the list of URLs ever enqueued. -/
theorem c8_enqueue_at_most_once (env : CrawlEnv) (fuel : Nat) :
    (crawl env fuel).enqueued.Nodup
    ∧ (crawl env fuel).visited = (crawl env fuel).enqueued := by
  have h := crawlLoop_visinv env fuel (initState env) (initState_visinv env)
  exact ⟨h.1 ▸ h.2, h.1⟩

/-! ## Claim C5 -/

/-- C5 counterexample: with `maxDepth = 0` the crawl loop runs to
exhaustion (empty frontier at return), yet `page1` — which entered the
visited set when it was enqueued — ends up in neither `pages` nor
`failed_urls`: it was dequeued with depth 1 > 0 and silently discarded. -/
theorem c5_counterexample :
    finalB.queue = []
    ∧ urlP1A ∈ finalB.visited
    ∧ urlP1A ∉ pageUrls finalB
    ∧ urlP1A ∉ finalB.failed_urls
    ∧ urlP1A ∉ finalB.skipped_urls := by
  decide

/-- C5 (amended): when the crawl loop runs to exhaustion, every URL that
ever entered the visited set ends up in exactly one of the result's
`pages` or `failedUrls` sequences, or in the set of entries that were
dequeued with depth greater than `maxDepth` and silently dropped: the
visited set is a permutation of the concatenation of the page URLs, the
failed URLs and the dropped URLs, and that concatenation holds no
duplicates. -/
theorem c5_visited_partition (env : CrawlEnv) (fuel : Nat)
    (hq : (crawl env fuel).queue = []) :
    (crawl env fuel).visited.Perm
      (pageUrls (crawl env fuel) ++ (crawl env fuel).failed_urls ++ (crawl env fuel).dropped)
    ∧ (pageUrls (crawl env fuel) ++ (crawl env fuel).failed_urls
        ++ (crawl env fuel).dropped).Nodup := by
  have hpart : PartInv (crawl env fuel) :=
    crawlLoop_partinv env fuel (initState env) (initState_partinv env)
  have hvis : VisInv (crawl env fuel) :=
    crawlLoop_visinv env fuel (initState env) (initState_visinv env)
  have hcoe : ((crawl env fuel).visited : Multiset Str)
      = ↑(pageUrls (crawl env fuel) ++ (crawl env fuel).failed_urls
          ++ (crawl env fuel).dropped) := by
    have h0 := hpart
    unfold PartInv at h0
    rw [hq] at h0
    rw [coe_append, coe_append]
    simpa using h0
  have hperm : (crawl env fuel).visited.Perm
      (pageUrls (crawl env fuel) ++ (crawl env fuel).failed_urls
        ++ (crawl env fuel).dropped) :=
    Multiset.coe_eq_coe.mp hcoe
  exact ⟨hperm, (hperm.nodup_iff).mp hvis.2⟩

/-- C5 witness: the amended theorem applied to scenario B, whose frontier
is exhausted after three iterations. -/
theorem c5_witness :
    (crawl envB 10).queue = []
    ∧ ((crawl envB 10).visited.Perm
        (pageUrls (crawl envB 10) ++ (crawl envB 10).failed_urls ++ (crawl envB 10).dropped)
      ∧ (pageUrls (crawl envB 10) ++ (crawl envB 10).failed_urls
          ++ (crawl envB 10).dropped).Nodup) :=
  ⟨by decide, c5_visited_partition envB 10 (by decide)⟩

/-! ## Character lemmas (ASCII case handling) -/

lemma char_eq_of_toNat {a b : Char} (h : a.toNat = b.toNat) : a = b :=
  Char.eq_of_val_eq (UInt32.toBitVec_injective (BitVec.toNat_injective h))

lemma char_ofNat_toNat (n : Nat) (h : n.isValidChar) : (Char.ofNat n).toNat = n := by
  simp [Char.ofNat, h, Char.ofNatAux, Char.toNat, UInt32.toNat, BitVec.toNat_ofNat]

lemma char_toLower_toNat (c : Char) :
    (Char.toLower c).toNat
      = if 65 ≤ c.toNat ∧ c.toNat ≤ 90 then c.toNat + 32 else c.toNat := by
  unfold Char.toLower
  by_cases h : c.toNat ≥ 65 ∧ c.toNat ≤ 90
  · rw [if_pos h, if_pos ⟨h.1, h.2⟩]
    exact char_ofNat_toNat _ (Or.inl (by omega))
  · rw [if_neg h, if_neg (fun hh => h ⟨hh.1, hh.2⟩)]

lemma char_toLower_eq_self (c : Char) (h : ¬(65 ≤ c.toNat ∧ c.toNat ≤ 90)) :
    Char.toLower c = c := by
  unfold Char.toLower
  exact if_neg (fun hh => h ⟨hh.1, hh.2⟩)

lemma char_toLower_idem (c : Char) :
    Char.toLower (Char.toLower c) = Char.toLower c := by
  apply char_eq_of_toNat
  rw [char_toLower_toNat (Char.toLower c), char_toLower_toNat c]
  by_cases h : 65 ≤ c.toNat ∧ c.toNat ≤ 90
  · simp only [if_pos h]
    rw [if_neg (by omega)]
  · simp only [if_neg h]

lemma char_isUpper_iff (c : Char) : c.isUpper = true ↔ 65 ≤ c.toNat ∧ c.toNat ≤ 90 := by
  unfold Char.isUpper
  simp only [Bool.and_eq_true, decide_eq_true_eq]
  constructor
  · intro h
    exact ⟨h.1, h.2⟩
  · intro h
    exact ⟨h.1, h.2⟩

lemma char_isLower_iff (c : Char) : c.isLower = true ↔ 97 ≤ c.toNat ∧ c.toNat ≤ 122 := by
  unfold Char.isLower
  simp only [Bool.and_eq_true, decide_eq_true_eq]
  constructor
  · intro h
    exact ⟨h.1, h.2⟩
  · intro h
    exact ⟨h.1, h.2⟩

lemma char_isAlpha_iff (c : Char) :
    c.isAlpha = true
      ↔ (65 ≤ c.toNat ∧ c.toNat ≤ 90) ∨ (97 ≤ c.toNat ∧ c.toNat ≤ 122) := by
  unfold Char.isAlpha
  rw [Bool.or_eq_true, char_isUpper_iff, char_isLower_iff]

lemma char_isAlpha_toLower (c : Char) (h : c.isAlpha = true) :
    (Char.toLower c).isAlpha = true := by
  rw [char_isAlpha_iff] at h ⊢
  rw [char_toLower_toNat]
  by_cases hc : 65 ≤ c.toNat ∧ c.toNat ≤ 90
  · rw [if_pos hc]
    right
    omega
  · rw [if_neg hc]
    rcases h with h | h
    · exact absurd h hc
    · exact Or.inr h

lemma isSchemeChar_toLower (c : Char) (h : isSchemeChar c = true) :
    isSchemeChar (Char.toLower c) = true := by
  by_cases hu : 65 ≤ c.toNat ∧ c.toNat ≤ 90
  · have halpha : (Char.toLower c).isAlpha = true :=
      char_isAlpha_toLower c (by rw [char_isAlpha_iff]; exact Or.inl hu)
    unfold isSchemeChar
    rw [halpha]
    rfl
  · rw [char_toLower_eq_self c hu]
    exact h

lemma isSchemeChar_ne_colon (c : Char) (h : isSchemeChar c = true) : c ≠ ':' := by
  intro hc
  subst hc
  exact absurd h (by decide)

/-! ## Lemmas about the string-splitting helpers -/

lemma findIdxOf?_eq_none (c : Char) (s : Str) (h : c ∉ s) : findIdxOf? c s = none := by
  induction s with
  | nil => rfl
  | cons a t ih =>
    unfold findIdxOf?
    rw [if_neg (by intro hac; exact h (hac ▸ List.mem_cons_self a t)), ih (fun hm => h (List.mem_cons_of_mem a hm))]
    rfl

lemma findIdxOf?_append_cons (c : Char) (l r : Str) (h : c ∉ l) :
    findIdxOf? c (l ++ c :: r) = some l.length := by
  induction l with
  | nil =>
    show findIdxOf? c (c :: r) = some 0
    simp [findIdxOf?]
  | cons a t ih =>
    have hat : a ≠ c := fun hac => h (hac ▸ List.mem_cons_self a t)
    show findIdxOf? c (a :: (t ++ c :: r)) = some (t.length + 1)
    simp only [findIdxOf?]
    rw [if_neg hat, ih (fun hm => h (List.mem_cons_of_mem a hm))]
    rfl

lemma findIdxOf?_spec (c : Char) :
    ∀ (s : Str) (i : Nat), findIdxOf? c s = some i →
      i < s.length ∧ s.take i ++ c :: s.drop (i + 1) = s := by
  intro s
  induction s with
  | nil =>
    intro i h
    exact absurd h (by simp [findIdxOf?])
  | cons a t ih =>
    intro i h
    unfold findIdxOf? at h
    by_cases hac : a = c
    · rw [if_pos hac] at h
      have : i = 0 := by
        simpa using h.symm
      subst this
      subst hac
      exact ⟨by simp, by simp⟩
    · rw [if_neg hac] at h
      cases hr : findIdxOf? c t with
      | none =>
        rw [hr] at h
        exact absurd h (by simp)
      | some j =>
        rw [hr] at h
        have hij : i = j + 1 := by
          simpa using h.symm
        subst hij
        obtain ⟨hlt, heq⟩ := ih j hr
        constructor
        · simpa using Nat.succ_lt_succ hlt
        · show a :: t.take j ++ c :: t.drop (j + 1) = a :: t
          rw [List.cons_append]
          rw [heq]

lemma splitOnceAt_eq_none (c : Char) (s : Str) (h : c ∉ s) : splitOnceAt c s = none := by
  induction s with
  | nil => rfl
  | cons a t ih =>
    unfold splitOnceAt
    rw [if_neg (by intro hac; exact h (hac ▸ List.mem_cons_self a t))]
    rw [ih (fun hm => h (List.mem_cons_of_mem a hm))]
    rfl

lemma splitOnceAt_append (c : Char) (l r : Str) (h : c ∉ l) :
    splitOnceAt c (l ++ c :: r) = some (l, r) := by
  induction l with
  | nil =>
    show splitOnceAt c (c :: r) = some ([], r)
    simp [splitOnceAt]
  | cons a t ih =>
    have hat : a ≠ c := fun hac => h (hac ▸ List.mem_cons_self a t)
    show splitOnceAt c (a :: (t ++ c :: r)) = some (a :: t, r)
    simp only [splitOnceAt]
    rw [if_neg hat, ih (fun hm => h (List.mem_cons_of_mem a hm))]
    rfl

lemma splitOnceAt_some (c : Char) :
    ∀ (s a b : Str), splitOnceAt c s = some (a, b) → s = a ++ c :: b ∧ c ∉ a := by
  intro s
  induction s with
  | nil =>
    intro a b h
    exact absurd h (by simp [splitOnceAt])
  | cons x t ih =>
    intro a b h
    unfold splitOnceAt at h
    by_cases hxc : x = c
    · rw [if_pos hxc] at h
      have : ([] : Str) = a ∧ t = b := by
        constructor <;> · have := h
                          simp at this
                          simp [this.1.symm, this.2.symm]
      obtain ⟨ha, hb⟩ := this
      subst hxc
      rw [← ha, ← hb]
      exact ⟨rfl, by simp⟩
    · rw [if_neg hxc] at h
      cases hr : splitOnceAt c t with
      | none =>
        rw [hr] at h
        exact absurd h (by simp)
      | some p =>
        rw [hr] at h
        have hax : a = x :: p.1 ∧ b = p.2 := by
          have := h
          simp at this
          exact ⟨this.1.symm, this.2.symm⟩
        obtain ⟨ha, hb⟩ := hax
        obtain ⟨h1, h2⟩ := ih p.1 p.2 (by rw [hr])
        subst ha
        subst hb
        constructor
        · rw [List.cons_append, ← h1]
        · intro hm
          rcases List.mem_cons.mp hm with hm | hm
          · exact hxc hm.symm
          · exact h2 hm

lemma splitNetloc_append (NL r : Str) (h : ∀ x ∈ NL, isNetlocEnd x = false)
    (hr : r = [] ∨ isNetlocEnd (r.headD '/') = true) :
    splitNetloc (NL ++ r) = (NL, r) := by
  induction NL with
  | nil =>
    rcases hr with hr | hr
    · subst hr
      rfl
    · cases r with
      | nil => rfl
      | cons a t =>
        show splitNetloc (a :: t) = ([], a :: t)
        simp only [splitNetloc]
        rw [if_pos (by simpa using hr)]
  | cons x nl ih =>
    have hx : isNetlocEnd x = false := h x (List.mem_cons_self x nl)
    show splitNetloc (x :: (nl ++ r)) = (x :: nl, r)
    simp only [splitNetloc]
    rw [if_neg (by simp [hx])]
    rw [ih (fun y hy => h y (List.mem_cons_of_mem x hy))]

lemma dropWhile_append_cons (p : Char → Bool) (a : Str) (x : Char) (r : Str)
    (hx : p x = false) :
    List.dropWhile p (a ++ x :: r) = List.dropWhile p a ++ x :: r := by
  induction a with
  | nil =>
    simp [List.dropWhile_cons, hx]
  | cons y t ih =>
    show List.dropWhile p (y :: (t ++ x :: r)) = List.dropWhile p (y :: t) ++ x :: r
    rw [List.dropWhile_cons, List.dropWhile_cons]
    by_cases hy : p y = true
    · rw [if_pos hy, if_pos hy, ih]
    · rw [if_neg hy, if_neg hy]
      simp

lemma pyRstrip_append_cons (c : Char) (l : Str) (x : Char) (r : Str) (hx : x ≠ c) :
    pyRstrip c (l ++ x :: r) = l ++ x :: pyRstrip c r := by
  unfold pyRstrip
  rw [List.reverse_append, List.reverse_cons]
  rw [List.append_assoc, List.singleton_append]
  rw [dropWhile_append_cons _ _ _ _ (by simp [hx])]
  rw [List.reverse_append, List.reverse_cons, List.reverse_reverse]
  simp

lemma pyRstrip_exists_replicate (c : Char) (s : Str) :
    ∃ k, s = pyRstrip c s ++ List.replicate k c := by
  refine ⟨(List.takeWhile (fun x => x = c) s.reverse).length, ?_⟩
  have h1 : s.reverse = List.takeWhile (fun x => x = c) s.reverse
      ++ List.dropWhile (fun x => x = c) s.reverse :=
    (List.takeWhile_append_dropWhile _ _).symm
  have h2 : List.takeWhile (fun x => x = c) s.reverse
      = List.replicate (List.takeWhile (fun x => x = c) s.reverse).length c := by
    rw [List.eq_replicate_iff]
    refine ⟨rfl, ?_⟩
    intro b hb
    have hp := List.mem_takeWhile_imp hb
    simpa using hp
  calc s = s.reverse.reverse := (List.reverse_reverse s).symm
  _ = (List.takeWhile (fun x => x = c) s.reverse
        ++ List.dropWhile (fun x => x = c) s.reverse).reverse := by rw [← h1]
  _ = pyRstrip c s ++ (List.takeWhile (fun x => x = c) s.reverse).reverse := by
        rw [List.reverse_append]
        rfl
  _ = pyRstrip c s ++ List.replicate (List.takeWhile (fun x => x = c) s.reverse).length c := by
        congr 1
        conv_lhs => rw [h2]
        rw [List.reverse_replicate]

lemma pyRstrip_isPrefix (c : Char) (s : Str) : pyRstrip c s <+: s := by
  obtain ⟨k, hk⟩ := pyRstrip_exists_replicate c s
  exact ⟨List.replicate k c, hk.symm⟩

lemma pyRstrip_getLast (c : Char) (s : Str) : (pyRstrip c s).getLast? ≠ some c := by
  intro h
  have h1 : (pyRstrip c s).reverse.head? = some c := by
    rw [List.head?_reverse]
    exact h
  have h2 : (pyRstrip c s).reverse = List.dropWhile (fun x => x = c) s.reverse := by
    unfold pyRstrip
    rw [List.reverse_reverse]
  rw [h2] at h1
  cases hd : List.dropWhile (fun x => x = c) s.reverse with
  | nil =>
    rw [hd] at h1
    exact absurd h1 (by simp)
  | cons a t =>
    rw [hd] at h1
    have ha : a = c := by
      simpa using h1
    have := List.head?_dropWhile_not (fun x => x = c) s.reverse
    rw [hd] at this
    simp [ha] at this

lemma stripSlash_eq_of_getLast (d : Str) (h : d.getLast? ≠ some '/') :
    stripSlash d = d := by
  unfold stripSlash stripSlashCond
  rw [if_neg]
  intro hc
  have : endsWithChar '/' d = true := (Bool.and_eq_true_iff.mp hc).1
  exact h ((endsWithChar_iff '/' d).mp this)

lemma stripSlash_idem (d : Str) : stripSlash (stripSlash d) = stripSlash d := by
  unfold stripSlash
  by_cases hc : stripSlashCond d = true
  · rw [if_pos hc]
    have := stripSlash_eq_of_getLast (pyRstrip '/' d) (pyRstrip_getLast '/' d)
    unfold stripSlash at this
    exact this
  · rw [if_neg hc, if_neg hc]

lemma stripSlash_cases (d : Str) :
    stripSlash d = d ∨ (stripSlash d = pyRstrip '/' d ∧ d.getLast? = some '/') := by
  unfold stripSlash
  by_cases hc : stripSlashCond d = true
  · rw [if_pos hc]
    right
    refine ⟨rfl, ?_⟩
    have : endsWithChar '/' d = true := (Bool.and_eq_true_iff.mp hc).1
    exact (endsWithChar_iff '/' d).mp this
  · rw [if_neg hc]
    exact Or.inl rfl

lemma splitOnceAt_none_not_mem (c : Char) :
    ∀ s : Str, splitOnceAt c s = none → c ∉ s := by
  intro s
  induction s with
  | nil =>
    intro _ hm
    cases hm
  | cons a t ih =>
    intro h hm
    unfold splitOnceAt at h
    by_cases hac : a = c
    · rw [if_pos hac] at h
      cases h
    · rw [if_neg hac] at h
      rcases List.mem_cons.mp hm with hm | hm
    
      · exact hac hm.symm
      · cases hr : splitOnceAt c t with
        | none => exact ih hr hm
        | some p =>
          rw [hr] at h
          cases h

lemma fragSplit_fst_no_hash (s : Str) : '#' ∉ (fragSplit s).1 := by
  unfold fragSplit
  cases hr : splitOnceAt '#' s with
  | none => exact splitOnceAt_none_not_mem '#' s hr
  | some p => exact (splitOnceAt_some '#' s p.1 p.2 (by rw [hr])).2

lemma fragSplit_snd_sub (s : Str) : ∀ x ∈ (fragSplit s).2, x ∈ s := by
  unfold fragSplit
  cases hr : splitOnceAt '#' s with
  | none =>
    intro x hx
    cases hx
  | some p =>
    intro x hx
    have := (splitOnceAt_some '#' s p.1 p.2 (by rw [hr])).1
    rw [this]
    exact List.mem_append.mpr (Or.inr (List.mem_cons_of_mem _ hx))

lemma querySplit_fst_no_qm (s : Str) : '?' ∉ (querySplit s).1 := by
  unfold querySplit
  cases hr : splitOnceAt '?' s with
  | none => exact splitOnceAt_none_not_mem '?' s hr
  | some p => exact (splitOnceAt_some '?' s p.1 p.2 (by rw [hr])).2

lemma querySplit_fst_sub (s : Str) : ∀ x ∈ (querySplit s).1, x ∈ s := by
  unfold querySplit
  cases hr : splitOnceAt '?' s with
  | none =>
    intro x hx
    exact hx
  | some p =>
    intro x hx
    have := (splitOnceAt_some '?' s p.1 p.2 (by rw [hr])).1
    rw [this]
    exact List.mem_append.mpr (Or.inl hx)

lemma querySplit_snd_sub (s : Str) : ∀ x ∈ (querySplit s).2, x ∈ s := by
  unfold querySplit
  cases hr : splitOnceAt '?' s with
  | none =>
    intro x hx
    cases hx
  | some p =>
    intro x hx
    have := (splitOnceAt_some '?' s p.1 p.2 (by rw [hr])).1
    rw [this]
    exact List.mem_append.mpr (Or.inr (List.mem_cons_of_mem _ hx))

lemma splitNetloc_fst_clean :
    ∀ s : Str, ∀ x ∈ (splitNetloc s).1, isNetlocEnd x = false := by
  intro s
  induction s with
  | nil =>
    intro x hx
    cases hx
  | cons a t ih =>
    intro x hx
    unfold splitNetloc at hx
    by_cases ha : isNetlocEnd a = true
    · rw [if_pos ha] at hx
      cases hx
    · rw [if_neg ha] at hx
      rcases List.mem_cons.mp hx with hx | hx
      · subst hx
        cases hE : isNetlocEnd x
        · rfl
        · exact absurd hE ha
      · exact ih x hx

lemma netlocSplit_fst_clean (s : Str) :
    ∀ x ∈ (netlocSplit s).1, isNetlocEnd x = false := by
  unfold netlocSplit
  split
  · exact splitNetloc_fst_clean _
  · intro x hx
    cases hx

/-- The netloc of any parse contains no `/`, `?` or `#`. -/
lemma pyUrlsplit_netloc_clean (u d : Str) :
    ∀ x ∈ (pyUrlsplit u d).netloc, isNetlocEnd x = false :=
  netlocSplit_fst_clean _

/-- The path of any parse contains no `?` and no `#`. -/
lemma pyUrlsplit_path_clean (u d : Str) :
    '?' ∉ (pyUrlsplit u d).path ∧ '#' ∉ (pyUrlsplit u d).path := by
  constructor
  · exact querySplit_fst_no_qm _
  · intro hm
    exact fragSplit_fst_no_hash _ (querySplit_fst_sub _ '#' hm)

/-- The query of any parse contains no `#`. -/
lemma pyUrlsplit_query_clean (u d : Str) : '#' ∉ (pyUrlsplit u d).query := by
  intro hm
  exact fragSplit_fst_no_hash _ (querySplit_snd_sub _ '#' hm)

lemma headD_append_of_ne_nil (T l : Str) (c : Char) (h : T ≠ []) :
    (T ++ l).headD c = T.headD c := by
  cases T with
  | nil => exact absurd rfl h
  | cons a t => rfl

lemma drop_length_succ_append (T R : Str) (x : Char) :
    (T ++ x :: R).drop (T.length + 1) = R := by
  have h1 : T ++ x :: R = (T ++ [x]) ++ R := by
    simp
  have hlen : (T ++ [x]).length = T.length + 1 := by
    simp
  rw [h1, ← hlen, List.drop_left]

/-- Scheme extraction on a string whose prefix up to the first colon is a
well-formed scheme token. -/
lemma schemeSplit_token (T R : Str) (hne : T ≠ [])
    (hhead : (T.headD ' ').isAlpha = true) (hall : T.all isSchemeChar = true) :
    schemeSplit (T ++ ':' :: R) = some (T.map Char.toLower, R) := by
  have hcolon : ':' ∉ T := by
    intro hm
    exact absurd (List.all_eq_true.mp hall ':' hm) (by decide)
  unfold schemeSplit
  rw [findIdxOf?_append_cons ':' T R hcolon]
  show (if 0 < T.length ∧ ((T ++ ':' :: R).headD ' ').isAlpha = true
        ∧ ((T ++ ':' :: R).take T.length).all isSchemeChar = true
      then some ((((T ++ ':' :: R).take T.length)).map Char.toLower,
                 (T ++ ':' :: R).drop (T.length + 1))
      else none) = some (T.map Char.toLower, R)
  have hcond : 0 < T.length ∧ ((T ++ ':' :: R).headD ' ').isAlpha = true
      ∧ ((T ++ ':' :: R).take T.length).all isSchemeChar = true := by
    refine ⟨List.length_pos.mpr hne, ?_, ?_⟩
    · rw [headD_append_of_ne_nil T _ ' ' hne]
      exact hhead
    · rw [List.take_left]
      exact hall
  rw [if_pos hcond, List.take_left, drop_length_succ_append]

lemma findIdxFrom?_spec (c : Char) (start : Nat) (s : Str) (i : Nat)
    (h : findIdxFrom? c start s = some i) :
    s.take i ++ c :: s.drop (i + 1) = s := by
  unfold findIdxFrom? at h
  cases hj : findIdxOf? c (s.drop start) with
  | none =>
    rw [hj] at h
    exact absurd h (by simp)
  | some j =>
    rw [hj] at h
    have hi : i = j + start := by
      simpa using h.symm
    subst hi
    obtain ⟨hlt, heq⟩ := findIdxOf?_spec c (s.drop start) j hj
    calc s.take (j + start) ++ c :: s.drop (j + start + 1)
        = (s.take start ++ (s.drop start).take j)
            ++ c :: (s.drop start).drop (j + 1) := by
          rw [Nat.add_comm j start, List.take_add, List.drop_drop]
          have h2 : start + j + 1 = start + (j + 1) := by omega
          rw [h2]
      _ = s.take start ++ ((s.drop start).take j ++ c :: (s.drop start).drop (j + 1)) := by
          rw [List.append_assoc]
      _ = s.take start ++ s.drop start := by rw [heq]
      _ = s := List.take_append_drop start s

/-- Rejoining the parameter split restores the path, provided the split did
not produce empty parameters out of a trailing `;` (in that case CPython's
`urlunparse` drops the separator). -/
lemma joinParams_splitParams_of (p : Str)
    (h : (splitParams p).2 ≠ [] ∨ ';' ∉ p) :
    joinParams (splitParams p) = p := by
  unfold splitParams at h ⊢
  by_cases hsl : p.contains '/' = true
  · rw [if_pos hsl] at h ⊢
    cases hr : rfindIdx? '/' p with
    | none =>
      show joinParams (p, []) = p
      simp [joinParams]
    | some r =>
      rw [hr] at h
      replace h : (splitParamsAt p (findIdxFrom? ';' r p)).2 ≠ [] ∨ ';' ∉ p := h
      show joinParams (splitParamsAt p (findIdxFrom? ';' r p)) = p
      cases hf : findIdxFrom? ';' r p with
      | none =>
        show joinParams (p, []) = p
        simp [joinParams]
      | some i =>
        rw [hf] at h
        replace h : p.drop (i + 1) ≠ [] ∨ ';' ∉ p := h
        have hspec := findIdxFrom?_spec ';' r p i hf
        show joinParams (p.take i, p.drop (i + 1)) = p
        unfold joinParams
        by_cases hd : p.drop (i + 1) = []
        · exfalso
          rcases h with h | h
          · exact h hd
          · apply h
            rw [← hspec]
            exact List.mem_append.mpr (Or.inr (List.mem_cons_self _ _))
        · rw [if_neg hd]
          exact hspec
  · rw [if_neg hsl] at h ⊢
    cases hf : findIdxOf? ';' p with
    | none =>
      show joinParams (p, []) = p
      simp [joinParams]
    | some i =>
      rw [hf] at h
      replace h : p.drop (i + 1) ≠ [] ∨ ';' ∉ p := h
      obtain ⟨hlt, heq⟩ := findIdxOf?_spec ';' p i hf
      show joinParams (p.take i, p.drop (i + 1)) = p
      unfold joinParams
      by_cases hd : p.drop (i + 1) = []
      · exfalso
        rcases h with h | h
        · exact h hd
        · apply h
          rw [← heq]
          exact List.mem_append.mpr (Or.inr (List.mem_cons_self _ _))
      · rw [if_neg hd]
        exact heq

/-- Conditional round trip for the `urlparse`-level parameter split. -/
lemma joinParams_paramsSplitIf_of (scheme p : Str)
    (h : (paramsSplitIf scheme p).2 ≠ [] ∨ ';' ∉ p) :
    joinParams (paramsSplitIf scheme p) = p := by
  unfold paramsSplitIf at h ⊢
  by_cases hc : scheme ∈ usesParams ∧ p.contains ';' = true
  · rw [if_pos hc] at h ⊢
    exact joinParams_splitParams_of p h
  · rw [if_neg hc]
    simp [joinParams]

lemma splitParamsAt_fst_sub (p : Str) (io : Option Nat) :
    ∀ x ∈ (splitParamsAt p io).1, x ∈ p := by
  cases io with
  | none =>
    intro x hx
    exact hx
  | some i =>
    intro x hx
    exact List.take_subset i p hx

lemma splitParamsAt_snd_sub (p : Str) (io : Option Nat) :
    ∀ x ∈ (splitParamsAt p io).2, x ∈ p := by
  cases io with
  | none =>
    intro x hx
    cases hx
  | some i =>
    intro x hx
    exact List.drop_subset (i + 1) p hx

lemma splitParams_fst_sub (p : Str) : ∀ x ∈ (splitParams p).1, x ∈ p := by
  unfold splitParams
  by_cases hsl : p.contains '/' = true
  · rw [if_pos hsl]
    cases hr : rfindIdx? '/' p with
    | none =>
      intro x hx
      exact hx
    | some r =>
      exact splitParamsAt_fst_sub p _
  · rw [if_neg hsl]
    exact splitParamsAt_fst_sub p _

lemma splitParams_snd_sub (p : Str) : ∀ x ∈ (splitParams p).2, x ∈ p := by
  unfold splitParams
  by_cases hsl : p.contains '/' = true
  · rw [if_pos hsl]
    cases hr : rfindIdx? '/' p with
    | none =>
      intro x hx
      cases hx
    | some r =>
      exact splitParamsAt_snd_sub p _
  · rw [if_neg hsl]
    exact splitParamsAt_snd_sub p _

lemma paramsSplitIf_fst_sub (scheme p : Str) :
    ∀ x ∈ (paramsSplitIf scheme p).1, x ∈ p := by
  unfold paramsSplitIf
  by_cases hc : scheme ∈ usesParams ∧ p.contains ';' = true
  · rw [if_pos hc]
    exact splitParams_fst_sub p
  · rw [if_neg hc]
    intro x hx
    exact hx

lemma paramsSplitIf_snd_sub (scheme p : Str) :
    ∀ x ∈ (paramsSplitIf scheme p).2, x ∈ p := by
  unfold paramsSplitIf
  by_cases hc : scheme ∈ usesParams ∧ p.contains ';' = true
  · rw [if_pos hc]
    exact splitParams_snd_sub p
  · rw [if_neg hc]
    intro x hx
    cases hx

lemma ensureSlash_of_shape (u : Str) (h : u = [] ∨ u.headD ' ' = '/') :
    ensureSlash u = u := by
  unfold ensureSlash
  rcases h with h | h
  · subst h
    rw [if_neg]
    intro hc
    exact hc.1 rfl
  · cases u with
    | nil => rfl
    | cons a t =>
      rw [if_neg]
      intro hc
      apply hc.2
      have : a = '/' := h
      rw [this]
      rfl

lemma ensureSlash_shape (u : Str) :
    ensureSlash u = [] ∨ (ensureSlash u).headD ' ' = '/' := by
  unfold ensureSlash
  by_cases hc : u ≠ [] ∧ u.take 1 ≠ ['/']
  · rw [if_pos hc]
    right
    rfl
  · rw [if_neg hc]
    push_neg at hc
    by_cases hu : u = []
    · exact Or.inl hu
    · right
      have := hc hu
      cases u with
      | nil => exact absurd rfl hu
      | cons a t =>
        have ha : a = '/' := by
          have h1 : List.take 1 (a :: t) = [a] := by simp
          rw [h1] at this
          simpa using this
        rw [ha]
        rfl

lemma ensureSlash_mem (u : Str) : ∀ x ∈ ensureSlash u, x = '/' ∨ x ∈ u := by
  unfold ensureSlash
  by_cases hc : u ≠ [] ∧ u.take 1 ≠ ['/']
  · rw [if_pos hc]
    intro x hx
    rcases List.mem_cons.mp hx with hx | hx
    · exact Or.inl hx
    · exact Or.inr hx
  · rw [if_neg hc]
    intro x hx
    exact Or.inr hx

lemma pySplitOn_mem_chars (sep : Char) :
    ∀ (s : Str) (seg : Str), seg ∈ pySplitOn sep s → ∀ c ∈ seg, c ∈ s := by
  intro s
  induction s with
  | nil =>
    intro seg hseg c hc
    unfold pySplitOn at hseg
    have : seg = [] := by
      simpa using hseg
    subst this
    cases hc
  | cons a t ih =>
    intro seg hseg c hc
    unfold pySplitOn at hseg
    cases hr : pySplitOn sep t with
    | nil =>
      rw [hr] at hseg
      have : seg = [] := by
        simpa using hseg
      subst this
      cases hc
    | cons s0 rest =>
      rw [hr] at hseg
      replace hseg : seg ∈ (if a = sep then [] :: s0 :: rest else (a :: s0) :: rest) := hseg
      by_cases ha : a = sep
      · rw [if_pos ha] at hseg
        rcases List.mem_cons.mp hseg with h | h
        · subst h
          cases hc
        · exact List.mem_cons_of_mem a (ih seg (hr ▸ h) c hc)
      · rw [if_neg ha] at hseg
        rcases List.mem_cons.mp hseg with h | h
        · subst h
          rcases List.mem_cons.mp hc with h | h
          · exact h ▸ List.mem_cons_self a t
          · exact List.mem_cons_of_mem a (ih s0 (hr ▸ List.mem_cons_self s0 rest) c h)
        · exact List.mem_cons_of_mem a (ih seg (hr ▸ List.mem_cons_of_mem s0 h) c hc)

lemma keepNonEmptyMiddle_mem :
    ∀ (l : List Str) (x : Str), x ∈ keepNonEmptyMiddle l → x ∈ l := by
  intro l
  induction l with
  | nil =>
    intro x hx
    cases hx
  | cons a t ih =>
    intro x hx
    cases t with
    | nil =>
      exact hx
    | cons b r =>
      unfold keepNonEmptyMiddle at hx
      by_cases ha : a = []
      · rw [if_pos ha] at hx
        exact List.mem_cons_of_mem a (ih x hx)
      · rw [if_neg ha] at hx
        rcases List.mem_cons.mp hx with h | h
        · exact h ▸ List.mem_cons_self a (b :: r)
        · exact List.mem_cons_of_mem a (ih x h)

lemma filterSegments_mem (l : List Str) (x : Str) (hx : x ∈ filterSegments l) :
    x ∈ l := by
  cases l with
  | nil =>
    cases hx
  | cons a t =>
    unfold filterSegments at hx
    rcases List.mem_cons.mp hx with h | h
    · exact h ▸ List.mem_cons_self a t
    · exact List.mem_cons_of_mem a (keepNonEmptyMiddle_mem t x h)

lemma resolveSegments_mem :
    ∀ (l acc : List Str) (x : Str), x ∈ resolveSegments acc l → x ∈ acc ∨ x ∈ l := by
  intro l
  induction l with
  | nil =>
    intro acc x hx
    exact Or.inl hx
  | cons seg rest ih =>
    intro acc x hx
    unfold resolveSegments at hx
    by_cases h1 : seg = pys ".."
    · rw [if_pos h1] at hx
      rcases ih acc.dropLast x hx with h | h
      · exact Or.inl (List.dropLast_subset acc h)
      · exact Or.inr (List.mem_cons_of_mem seg h)
    · rw [if_neg h1] at hx
      by_cases h2 : seg = pys "."
      · rw [if_pos h2] at hx
        rcases ih acc x hx with h | h
        · exact Or.inl h
        · exact Or.inr (List.mem_cons_of_mem seg h)
      · rw [if_neg h2] at hx
        rcases ih (acc ++ [seg]) x hx with h | h
        · rcases List.mem_append.mp h with h | h
          · exact Or.inl h
          · right
            have : x = seg := by
              simpa using h
            exact this ▸ List.mem_cons_self seg rest
        · exact Or.inr (List.mem_cons_of_mem seg h)

lemma joinWith_mem (sep : Char) :
    ∀ (l : List Str) (c : Char), c ∈ joinWith sep l → c = sep ∨ ∃ x ∈ l, c ∈ x := by
  intro l
  induction l with
  | nil =>
    intro c hc
    cases hc
  | cons a t ih =>
    intro c hc
    cases t with
    | nil =>
      exact Or.inr ⟨a, List.mem_cons_self a [], hc⟩
    | cons b r =>
      unfold joinWith at hc
      rcases List.mem_append.mp hc with h | h
      · exact Or.inr ⟨a, List.mem_cons_self a (b :: r), h⟩
      · rcases List.mem_cons.mp h with h | h
        · exact Or.inl h
        · rcases ih c h with h | ⟨x, hx, hcx⟩
          · exact Or.inl h
          · exact Or.inr ⟨x, List.mem_cons_of_mem a hx, hcx⟩

lemma segmentsOf_chars (bpath upath : Str) (c : Char)
    (hb : c ∉ bpath) (hu : c ∉ upath) :
    ∀ seg ∈ segmentsOf bpath upath, c ∉ seg := by
  intro seg hseg hc
  unfold segmentsOf at hseg
  by_cases h1 : upath.take 1 = ['/']
  · rw [if_pos h1] at hseg
    exact hu (pySplitOn_mem_chars '/' upath seg hseg c hc)
  · rw [if_neg h1] at hseg
    have hseg2 := filterSegments_mem _ seg hseg
    rcases List.mem_append.mp hseg2 with h | h
    · unfold basePartsOf at h
      by_cases h2 : (pySplitOn '/' bpath).getLastD [] ≠ []
      · rw [if_pos h2] at h
        exact hb (pySplitOn_mem_chars '/' bpath seg (List.dropLast_subset _ h) c hc)
      · rw [if_neg h2] at h
        exact hb (pySplitOn_mem_chars '/' bpath seg h c hc)
    · exact hu (pySplitOn_mem_chars '/' upath seg h c hc)

lemma resolvePath_chars (bpath upath : Str) (c : Char) (hcsep : c ≠ '/')
    (hb : c ∉ bpath) (hu : c ∉ upath) :
    c ∉ resolvePath bpath upath := by
  intro hc
  unfold resolvePath at hc
  by_cases h1 : joinWith '/' (resolvedOf bpath upath) = []
  · rw [if_pos h1] at hc
    have : c = '/' := by
      simpa using hc
    exact hcsep this
  · rw [if_neg h1] at hc
    rcases joinWith_mem '/' (resolvedOf bpath upath) c hc with h | ⟨x, hx, hcx⟩
    · exact hcsep h
    · have hxseg : x ∈ resolveSegments [] (segmentsOf bpath upath) ∨ x = [] := by
        unfold resolvedOf at hx
        by_cases h2 : (segmentsOf bpath upath).getLastD [] = pys "."
            ∨ (segmentsOf bpath upath).getLastD [] = pys ".."
        · rw [if_pos h2] at hx
          rcases List.mem_append.mp hx with h | h
          · exact Or.inl h
          · right
            simpa using h
        · rw [if_neg h2] at hx
          exact Or.inl hx
      rcases hxseg with h | h
      · rcases resolveSegments_mem _ [] x h with h | h
        · cases h
        · exact segmentsOf_chars bpath upath c hb hu x h hcx
      · subst h
        cases hcx

/-! ## Canonical absolute URLs

`coreUrl S NL PP QQ` is the shape `S://NL` followed by a path-with-params
part `PP` (empty or slash-led) and a trailing part `QQ` (query and/or
fragment with their separators).  Every output the resolver produces for an
absolute http(s) base has this shape, and parsing such a string recovers
its components exactly. -/

def coreUrl (S NL PP QQ : Str) : Str :=
  S ++ ':' :: '/' :: '/' :: (NL ++ (PP ++ QQ))

lemma scheme_facts (S : Str) (hS : S = pys "http" ∨ S = pys "https") :
    S ≠ [] ∧ (S.headD ' ').isAlpha = true ∧ S.all isSchemeChar = true
      ∧ S.map Char.toLower = S := by
  rcases hS with h | h <;> subst h <;> exact ⟨by decide, by decide, by decide, by decide⟩

lemma urlsplit_canon (S NL PP QQ FF d : Str)
    (hS : S = pys "http" ∨ S = pys "https")
    (hNLne : NL ≠ []) (hNLc : ∀ x ∈ NL, isNetlocEnd x = false)
    (hPPshape : PP = [] ∨ PP.headD ' ' = '/')
    (hPPq : '?' ∉ PP) (hPPh : '#' ∉ PP)
    (hQQ : QQ = [] ∨ ∃ Qv, QQ = '?' :: Qv ∧ '#' ∉ Qv)
    (hFF : FF = [] ∨ ∃ Fv, FF = '#' :: Fv) :
    pyUrlsplit (coreUrl S NL PP (QQ ++ FF)) d = ⟨S, NL, PP, QQ.tail, FF.tail⟩ := by
  obtain ⟨hSne, hShead, hSall, hSlow⟩ := scheme_facts S hS
  have hhashQQ : '#' ∉ PP ++ QQ := by
    intro hm
    rcases List.mem_append.mp hm with hm | hm
    · exact hPPh hm
    · rcases hQQ with h | ⟨Qv, hQv, hQh⟩
      · subst h
        cases hm
      · subst hQv
        rcases List.mem_cons.mp hm with hm | hm
        · cases hm
        · exact hQh hm
  have h1 : schemeDefault (coreUrl S NL PP (QQ ++ FF)) d
      = (S, '/' :: '/' :: (NL ++ (PP ++ (QQ ++ FF)))) := by
    unfold schemeDefault
    have htok := schemeSplit_token S ('/' :: '/' :: (NL ++ (PP ++ (QQ ++ FF))))
      hSne hShead hSall
    rw [hSlow] at htok
    show (match schemeSplit (S ++ ':' :: '/' :: '/' :: (NL ++ (PP ++ (QQ ++ FF)))) with
      | some p => p
      | none => (d, coreUrl S NL PP (QQ ++ FF))) = _
    rw [htok]
  have h2 : netlocSplit ('/' :: '/' :: (NL ++ (PP ++ (QQ ++ FF))))
      = (NL, PP ++ (QQ ++ FF)) := by
    show splitNetloc (NL ++ (PP ++ (QQ ++ FF))) = (NL, PP ++ (QQ ++ FF))
    apply splitNetloc_append NL _ hNLc
    rcases hPPshape with hP | hP
    · subst hP
      rcases hQQ with h | ⟨Qv, hQv, _⟩
      · subst h
        rcases hFF with h | ⟨Fv, hFv⟩
        · subst h
          exact Or.inl rfl
        · subst hFv
          right
          rfl
      · subst hQv
        right
        rfl
    · cases PP with
      | nil =>
        exact absurd hP (by decide)
      | cons p0 pt =>
        right
        have hp0 : p0 = '/' := hP
        show isNetlocEnd ((p0 :: (pt ++ (QQ ++ FF))).headD '/') = true
        rw [hp0]
        rfl
  have h3 : fragSplit (PP ++ (QQ ++ FF)) = (PP ++ QQ, FF.tail) := by
    unfold fragSplit
    rcases hFF with h | ⟨Fv, hFv⟩
    · subst h
      rw [List.append_nil]
      rw [splitOnceAt_eq_none '#' (PP ++ QQ) hhashQQ]
      rfl
    · subst hFv
      have hassoc : PP ++ (QQ ++ '#' :: Fv) = (PP ++ QQ) ++ '#' :: Fv := by
        rw [List.append_assoc]
      rw [hassoc, splitOnceAt_append '#' (PP ++ QQ) Fv hhashQQ]
      rfl
  have h4 : querySplit (PP ++ QQ) = (PP, QQ.tail) := by
    unfold querySplit
    rcases hQQ with h | ⟨Qv, hQv, _⟩
    · subst h
      rw [List.append_nil]
      rw [splitOnceAt_eq_none '?' PP hPPq]
      rfl
    · subst hQv
      rw [splitOnceAt_append '?' PP Qv hPPq]
      rfl
  show pyUrlsplit (coreUrl S NL PP (QQ ++ FF)) d = ⟨S, NL, PP, QQ.tail, FF.tail⟩
  unfold pyUrlsplit
  rw [h1]
  show (⟨S, (netlocSplit ('/' :: '/' :: (NL ++ (PP ++ (QQ ++ FF))))).1,
      (querySplit (fragSplit (netlocSplit ('/' :: '/' :: (NL ++ (PP ++ (QQ ++ FF))))).2).1).1,
      (querySplit (fragSplit (netlocSplit ('/' :: '/' :: (NL ++ (PP ++ (QQ ++ FF))))).2).1).2,
      (fragSplit (netlocSplit ('/' :: '/' :: (NL ++ (PP ++ (QQ ++ FF))))).2).2⟩ : SplitUrl) = _
  rw [h2]
  show (⟨S, NL, (querySplit (fragSplit (PP ++ (QQ ++ FF))).1).1,
      (querySplit (fragSplit (PP ++ (QQ ++ FF))).1).2,
      (fragSplit (PP ++ (QQ ++ FF))).2⟩ : SplitUrl) = _
  rw [h3]
  show (⟨S, NL, (querySplit (PP ++ QQ)).1, (querySplit (PP ++ QQ)).2, FF.tail⟩ : SplitUrl) = _
  rw [h4]

lemma urlparse_canon (S NL PP QQ FF d : Str)
    (hS : S = pys "http" ∨ S = pys "https")
    (hNLne : NL ≠ []) (hNLc : ∀ x ∈ NL, isNetlocEnd x = false)
    (hPPshape : PP = [] ∨ PP.headD ' ' = '/')
    (hPPq : '?' ∉ PP) (hPPh : '#' ∉ PP)
    (hQQ : QQ = [] ∨ ∃ Qv, QQ = '?' :: Qv ∧ '#' ∉ Qv)
    (hFF : FF = [] ∨ ∃ Fv, FF = '#' :: Fv) :
    pyUrlparse (coreUrl S NL PP (QQ ++ FF)) d
      = ⟨S, NL, (paramsSplitIf S PP).1, (paramsSplitIf S PP).2, QQ.tail, FF.tail⟩ := by
  unfold pyUrlparse
  rw [urlsplit_canon S NL PP QQ FF d hS hNLne hNLc hPPshape hPPq hPPh hQQ hFF]

lemma unparse_canon (S NL P PAR Q F : Str) (hSne : S ≠ []) (hNLne : NL ≠ []) :
    pyUrlunparse ⟨S, NL, P, PAR, Q, F⟩
      = coreUrl S NL (ensureSlash (joinParams (P, PAR)))
          ((if Q = [] then [] else '?' :: Q) ++ (if F = [] then [] else '#' :: F)) := by
  show pyUrlunsplit S NL (joinParams (P, PAR)) Q F = _
  simp only [pyUrlunsplit, coreUrl]
  rw [if_pos (Or.inl hNLne), if_pos hSne]
  by_cases hF : F = []
  · rw [if_neg (fun hc => hc hF), if_pos hF]
    by_cases hQ : Q = []
    · rw [if_neg (fun hc => hc hQ), if_pos hQ]
      simp [pys]
    · rw [if_pos hQ, if_neg hQ]
      simp [pys]
  · rw [if_pos hF, if_neg hF]
    by_cases hQ : Q = []
    · rw [if_neg (fun hc => hc hQ), if_pos hQ]
      simp [pys]
    · rw [if_pos hQ, if_neg hQ]
      simp [pys]

lemma base_ne_nil (b S : Str) (hbS : (pyUrlparse b []).scheme = S)
    (hS : S = pys "http" ∨ S = pys "https") : b ≠ [] := by
  intro hb0
  subst hb0
  rcases hS with h | h <;> (subst h; exact absurd hbS (by decide))

lemma coreUrl_ne_nil (S NL PP QQ : Str) : coreUrl S NL PP QQ ≠ [] := by
  simp [coreUrl]

/-- A canonical URL without dangling separators is a fixed point of
resolution against a base of the same scheme. -/
lemma urljoin_canon_fixpoint (b S NL PP QQ : Str)
    (hbS : (pyUrlparse b []).scheme = S)
    (hS : S = pys "http" ∨ S = pys "https")
    (hNLne : NL ≠ []) (hNLc : ∀ x ∈ NL, isNetlocEnd x = false)
    (hPPshape : PP = [] ∨ PP.headD ' ' = '/')
    (hPPq : '?' ∉ PP) (hPPh : '#' ∉ PP)
    (hQQ : QQ = [] ∨ ∃ Qv, QQ = '?' :: Qv ∧ '#' ∉ Qv ∧ Qv ≠ [])
    (hstable : joinParams (paramsSplitIf S PP) = PP) :
    pyUrljoin b (coreUrl S NL PP QQ) = coreUrl S NL PP QQ := by
  have hbne : b ≠ [] := base_ne_nil b S hbS hS
  have hne : coreUrl S NL PP QQ ≠ [] := coreUrl_ne_nil S NL PP QQ
  have hrel : S ∈ usesRelative := by
    rcases hS with h | h <;> (subst h; decide)
  have hnetc : S ∈ usesNetloc := by
    rcases hS with h | h <;> (subst h; decide)
  obtain ⟨hSne, _, _, _⟩ := scheme_facts S hS
  have hQQ' : QQ = [] ∨ ∃ Qv, QQ = '?' :: Qv ∧ '#' ∉ Qv := by
    rcases hQQ with h | ⟨Qv, h1, h2, h3⟩
    · exact Or.inl h
    · exact Or.inr ⟨Qv, h1, h2⟩
  have hparse : pyUrlparse (coreUrl S NL PP QQ) (pyUrlparse b []).scheme
      = ⟨S, NL, (paramsSplitIf S PP).1, (paramsSplitIf S PP).2, QQ.tail, []⟩ := by
    have h := urlparse_canon S NL PP QQ [] ((pyUrlparse b []).scheme) hS hNLne hNLc
      hPPshape hPPq hPPh hQQ' (Or.inl rfl)
    rw [List.append_nil] at h
    exact h
  unfold pyUrljoin
  rw [if_neg hbne, if_neg hne, hparse]
  unfold pyUrljoinCore
  have hcond1 : ¬((⟨S, NL, (paramsSplitIf S PP).1, (paramsSplitIf S PP).2,
      QQ.tail, []⟩ : ParsedUrl).scheme ≠ (pyUrlparse b []).scheme
      ∨ (⟨S, NL, (paramsSplitIf S PP).1, (paramsSplitIf S PP).2,
          QQ.tail, []⟩ : ParsedUrl).scheme ∉ usesRelative) := by
    push_neg
    exact ⟨hbS.symm, hrel⟩
  rw [if_neg hcond1]
  rw [if_pos (⟨hnetc, hNLne⟩ : (⟨S, NL, (paramsSplitIf S PP).1,
      (paramsSplitIf S PP).2, QQ.tail, []⟩ : ParsedUrl).scheme ∈ usesNetloc
      ∧ (⟨S, NL, (paramsSplitIf S PP).1, (paramsSplitIf S PP).2,
          QQ.tail, []⟩ : ParsedUrl).netloc ≠ [])]
  rw [unparse_canon S NL _ _ _ _ hSne hNLne]
  have hj : joinParams ((paramsSplitIf S PP).1, (paramsSplitIf S PP).2) = PP := hstable
  rw [hj, ensureSlash_of_shape PP hPPshape]
  rcases hQQ with h | ⟨Qv, h1, h2, h3⟩
  · subst h
    simp
  · subst h1
    show coreUrl S NL PP ((if Qv = [] then [] else '?' :: Qv) ++ _) = _
    rw [if_neg h3]
    simp

lemma contains_false_of_not_mem (l : Str) (c : Char) (h : c ∉ l) :
    l.contains c = false := by
  by_contra hc
  rw [Bool.not_eq_false] at hc
  exact h (by simpa using hc)

lemma coreUrl_no_hash (S NL PP QQ : Str)
    (hS : S = pys "http" ∨ S = pys "https")
    (hNLc : ∀ x ∈ NL, isNetlocEnd x = false)
    (hPPh : '#' ∉ PP)
    (hQQ : QQ = [] ∨ ∃ Qv, QQ = '?' :: Qv ∧ '#' ∉ Qv ∧ Qv ≠ []) :
    '#' ∉ coreUrl S NL PP QQ := by
  intro hm
  unfold coreUrl at hm
  rcases List.mem_append.mp hm with hm | hm
  · rcases hS with h | h <;> (subst h; exact absurd hm (by decide))
  · rcases List.mem_cons.mp hm with hm | hm
    · exact absurd hm (by decide)
    rcases List.mem_cons.mp hm with hm | hm
    · exact absurd hm (by decide)
    rcases List.mem_cons.mp hm with hm | hm
    · exact absurd hm (by decide)
    rcases List.mem_append.mp hm with hm | hm
    · exact absurd (hNLc '#' hm) (by decide)
    rcases List.mem_append.mp hm with hm | hm
    · exact hPPh hm
    · rcases hQQ with h | ⟨Qv, h1, h2, _⟩
      · subst h
        cases hm
      · subst h1
        rcases List.mem_cons.mp hm with hm | hm
        · exact absurd hm (by decide)
        · exact h2 hm

/-- `urldefrag` leaves a fragment-free canonical URL unchanged. -/
lemma urldefrag_canon (S NL PP QQ : Str)
    (hS : S = pys "http" ∨ S = pys "https")
    (hNLc : ∀ x ∈ NL, isNetlocEnd x = false)
    (hPPh : '#' ∉ PP)
    (hQQ : QQ = [] ∨ ∃ Qv, QQ = '?' :: Qv ∧ '#' ∉ Qv ∧ Qv ≠ []) :
    pyUrldefrag (coreUrl S NL PP QQ) = coreUrl S NL PP QQ := by
  have hnm := contains_false_of_not_mem (coreUrl S NL PP QQ) '#'
    (coreUrl_no_hash S NL PP QQ hS hNLc hPPh hQQ)
  unfold pyUrldefrag
  rw [if_neg (by rw [hnm]; exact Bool.false_ne_true)]

/-- **C7** (corrected). The spec claims `normalize_url` is idempotent for
any URL and base. That is false in general (see the counterexample), but
it holds whenever the first normalisation produces a well-formed absolute
URL of the base's own `http`/`https` scheme: a nonempty authority free of
`/?#`, a path that is empty or slash-leading and free of `?`/`#` and of a
parameter split that `urlunparse` would not reassemble verbatim, and a
query part that is absent or a nonempty `?`-leading text free of `#`.
Under those conditions a second normalisation returns its input unchanged. -/
theorem c7_normalize_idempotent_amended (u b S NL PP QQ : Str)
    (hshape : normalize_url u b = coreUrl S NL PP QQ)
    (hbS : (pyUrlparse b []).scheme = S)
    (hS : S = pys "http" ∨ S = pys "https")
    (hNLne : NL ≠ []) (hNLc : ∀ x ∈ NL, isNetlocEnd x = false)
    (hPPshape : PP = [] ∨ PP.headD ' ' = '/')
    (hPPq : '?' ∉ PP) (hPPh : '#' ∉ PP)
    (hQQ : QQ = [] ∨ ∃ Qv, QQ = '?' :: Qv ∧ '#' ∉ Qv ∧ Qv ≠ [])
    (hstable : joinParams (paramsSplitIf S PP) = PP) :
    normalize_url (normalize_url u b) b = normalize_url u b := by
  have hjoin := urljoin_canon_fixpoint b S NL PP QQ hbS hS hNLne hNLc
    hPPshape hPPq hPPh hQQ hstable
  have hdefrag := urldefrag_canon S NL PP QQ hS hNLc hPPh hQQ
  rw [hshape]
  show stripSlash (pyUrldefrag (pyUrljoin b (coreUrl S NL PP QQ))) = coreUrl S NL PP QQ
  rw [hjoin, hdefrag, ← hshape]
  show stripSlash (stripSlash (defraggedResolved u b)) = stripSlash (defraggedResolved u b)
  exact stripSlash_idem (defraggedResolved u b)

/-- **C7 witness**: a concrete run of the amended idempotence theorem on
the relative link `page.html` against the base `https://docs.example.com/`. -/
theorem c7_witness :
    normalize_url (normalize_url (pys "page.html") (pys "https://docs.example.com/"))
        (pys "https://docs.example.com/")
      = normalize_url (pys "page.html") (pys "https://docs.example.com/") :=
  c7_normalize_idempotent_amended (pys "page.html") (pys "https://docs.example.com/")
    (pys "https") (pys "docs.example.com") (pys "/page.html") []
    (by decide) (by decide) (Or.inr rfl) (by decide) (by decide)
    (Or.inr (by decide)) (by decide) (by decide) (Or.inl rfl) (by decide)

/-- **C7 counterexample**: `normalize_url` is not idempotent. Resolving
`http://h/x.y?/` against `http://h/` strips the trailing slash into the
dangling query `http://h/x.y?`; normalising that again drops the now-empty
query marker, yielding `http://h/x.y`. -/
theorem c7_counterexample :
    normalize_url (normalize_url (pys "http://h/x.y?/") (pys "http://h/"))
        (pys "http://h/")
      ≠ normalize_url (pys "http://h/x.y?/") (pys "http://h/") := by
  decide
